import Mathlib
/-!
# A verification development for the reqseal token engine

Shallow embedding of the reqseal encode/decode engine (lib/reqseal.js,
both the naive and the map-based variant) and of the express middleware
verifier (src/express-mw.js), together with proofs about the embedded
definitions.

JavaScript strings are modelled as lists of characters (`Str := List Char`),
JavaScript numbers appearing in this code path are non-negative integers or
NaN, modelled as `Option Nat` (`none` = NaN).  Fallible steps return
`Option`/`Except`; the uniform catch-all of decodeKey is `Except Unit`.
-/
namespace ReqSeal

/-! ### Definitions -/
abbrev Str := List Char

/-- The character for a decimal digit value, as in JS number-to-string. -/
def digitChar (d : Nat) : Char := Char.ofNat (48 + d)

/-- JS isDigit: membership in the ten ASCII digit characters. -/
def isDigitCh (ch : Char) : Bool := 48 ≤ ch.toNat && ch.toNat ≤ 57

/-- Structural worker for the decimal digits of a natural number (the fuel
only bounds the recursion depth; it is never exhausted when it starts at
least at the number itself). -/
def natDigitsAux : Nat → Nat → List Nat
  | 0, _ => []
  | f + 1, n => if n < 10 then [n] else natDigitsAux f (n / 10) ++ [n % 10]

/-- Decimal digits of a natural number, most significant first
(the digits of JS Number.prototype.toString for an integer). -/
def natDigits (n : Nat) : List Nat := natDigitsAux (n + 1) n

/-- Value of a list of decimal digits, most significant first. -/
def digitsToNat (l : List Nat) : Nat := l.foldl (fun a d => 10 * a + d) 0

/-- Characters of the canonical decimal representation of a natural number. -/
def natChars (n : Nat) : Str := (natDigits n).map digitChar

/-- The numeric value of a digit character. -/
def chDigit (ch : Char) : Nat := ch.toNat - 48

/-- JS parseInt restricted to the call sites of reqseal: the argument is
always a (possibly empty) string of ASCII digits; parseInt of the empty
string is NaN (`none`). -/
def parseIntDigits (s : Str) : Option Nat :=
  if s = [] then none else some (digitsToNat (s.map chDigit))

/-! ## The lookup table (matrix)

The JS matrix is an object keyed by the digit strings 0..9; JS iterates
integer-like keys in ascending numeric order, so it is modelled as a list of
rows indexed by digit value. -/

/-- A lookup table: row d lists the symbols for digit d. -/
abbrev Mat := List (List Str)

/-- The symbol at digit row d, column c (JS matrix access; out-of-range is
never reached under a valid table and is modelled as `none`). -/
def msym? (m : Mat) (d c : Nat) : Option Str :=
  (m.get? d).bind fun r => r.get? c

/-- Total variant of the symbol access, used where the bounds are known. -/
def msym (m : Mat) (d c : Nat) : Str := ((m.getD d []).getD c [])

/-- noOfOptions = matrix[0].length (length of the first row). -/
def noOfOptions (m : Mat) : Nat := (m.headD []).length

/-- baseSize = matrix[0][0].length (length of the first symbol). -/
def baseSize (m : Mat) : Nat := ((m.headD []).headD []).length

/-- The structural invariants of a table, from the README of the repository
(all ten digits present, equal-length rows, uniform symbol length,
global uniqueness), plus the JS array-length bound on a row. -/
structure ValidTable (m : Mat) (N bs : Nat) : Prop where
  len10 : m.length = 10
  rowLen : ∀ r ∈ m, r.length = N
  Npos : 1 ≤ N
  Nbound : N ≤ 4294967295
  symLen : ∀ r ∈ m, ∀ s ∈ r, s.length = bs
  bsPos : 1 ≤ bs
  nodup : m.flatten.Nodup

/-- §4.2 step 7 configuration assumption: the separator never occurs inside
any table symbol. -/
def SepFree (m : Mat) (sep : Char) : Prop :=
  ∀ r ∈ m, ∀ s ∈ r, sep ∉ s

/-- No symbol of the table begins with an ASCII digit character.  This keeps
the inline decimal length prefixes of the wire format self-delimiting. -/
def NoDigitStart (m : Mat) : Prop :=
  ∀ r ∈ m, ∀ s ∈ r, ∀ ch ∈ s.head?, isDigitCh ch = false

/-! ## Chunking (the parts helper) -/

/-- Structural worker for parts; the fuel bounds the number of chunks and
is never exhausted when it starts at the string length. -/
def partsAux : Nat → Str → Nat → List Str
  | 0, _, _ => []
  | f + 1, s, cs => if s = [] then [] else s.take cs :: partsAux f (s.drop cs) cs

/-- parts(text, chunkSize): split a string into consecutive chunks of
chunkSize characters (the last chunk may be shorter).  The source loop
diverges for chunkSize = 0; that case is unreachable under a valid table
(baseSize ≥ 1) and is mapped to `[]`. -/
def parts (s : Str) (cs : Nat) : List Str :=
  if cs = 0 then [] else partsAux s.length s cs

/-! ## The Decode Index (buildDecodeMaps)

JS objects used as string-keyed maps are modelled as association lists in
insertion order.  Plain assignment overwrites the value of an existing key
in place; the guarded insertion of anyDecodeMap keeps the first value. -/

/-- Assignment map[k] = v: overwrite the value of an existing key in place,
or append a new entry. -/
def mapSet {β : Type} : List (Str × β) → Str → β → List (Str × β)
  | [], k, v => [(k, v)]
  | p :: t, k, v => if p.1 = k then (k, v) :: t else p :: mapSet t k v

/-- Guarded insertion: if (!(k in map)) map[k] = v. -/
def mapInsertNew {β : Type} : List (Str × β) → Str → β → List (Str × β)
  | [], k, v => [(k, v)]
  | p :: t, k, v => if p.1 = k then p :: t else p :: mapInsertNew t k v

/-- Map lookup map[k] (undefined = `none`). -/
def mapGet {β : Type} : List (Str × β) → Str → Option β
  | [], _ => none
  | p :: t, k => if p.1 = k then some p.2 else mapGet t k

/-- colDecodeMaps[c]: built by iterating the digit entries in ascending key
order and assigning colDecodeMaps[c][matrix[d][c]] = d; only the iterations
of the inner loop that touch column c act on this map.  An out-of-range
access (row shorter than noOfOptions) stores under the JS key "undefined",
which no symbol-string lookup can hit, so it is modelled as a no-op. -/
def buildColMap (m : Mat) (c : Nat) : List (Str × Nat) :=
  (List.range m.length).foldl
    (fun acc d =>
      match msym? m d c with
      | some v => mapSet acc v d
      | none => acc) []

/-- anyDecodeMap: first-writer-wins over all (digit, column) pairs in build
order (digits ascending, columns 0..noOfOptions-1 inside each digit). -/
def buildAnyMap (m : Mat) : List (Str × Nat) :=
  (List.range m.length).foldl
    (fun acc d =>
      (List.range (noOfOptions m)).foldl
        (fun acc2 c =>
          match msym? m d c with
          | some v => mapInsertNew acc2 v d
          | none => acc2) acc) []

/-! ## Characterizing the built maps -/

/-- The writes performed on colDecodeMaps[c], in build order: one per digit
entry whose row reaches column c, keyed by the symbol there. -/
def colWrites (m : Mat) (c : Nat) : List (Str × Nat) :=
  (List.range m.length).filterMap (fun d => (msym? m d c).map (fun v => (v, d)))

/-- The writes performed on anyDecodeMap, in build order: digits ascending,
columns 0..noOfOptions-1 inside each digit. -/
def anyWrites (m : Mat) : List (Str × Nat) :=
  (List.range m.length).flatMap
    (fun d => (List.range (noOfOptions m)).filterMap
      (fun c => (msym? m d c).map (fun v => (v, d))))

/-! ## Decode primitives

In the decode loop, the column argument of decode is either the parsed
metadata column (a JS number, possibly NaN), or a decoded digit string
(used directly as an array index).  A digit string indexes an array only in
its canonical form (no leading zero, value below the JS array length
bound). -/

/-- Is the digit string k a canonical JS array-index key. -/
def isCanonIndex (k : Str) : Bool :=
  k.all isDigitCh && !(k = []) && (k = [Char.ofNat 48] || !(k.head? = some (Char.ofNat 48)))
    && digitsToNat (k.map chDigit) < 4294967295

/-- The array index denoted by a string key, if canonical. -/
def canonNat? (k : Str) : Option Nat :=
  if isCanonIndex k then some (digitsToNat (k.map chDigit)) else none

/-- Optimized #decode with an undefined column: anyDecodeMap lookup
(the sauce path). -/
def optDecAny (m : Mat) (s : Str) : Option Nat := mapGet (buildAnyMap m) s

/-- Optimized #decode with a numeric column (`none` = NaN):
colDecodeMaps[col] lookup; NaN or an out-of-range column yields an
undefined map, hence a miss. -/
def optDecNum (m : Mat) (c? : Option Nat) (s : Str) : Option Nat :=
  match c? with
  | none => none
  | some c => if c < noOfOptions m then mapGet (buildColMap m c) s else none

/-- Optimized #decode with a string column (a decoded digit string used as
an array index): only a canonical index hits a column map. -/
def optDecStr (m : Mat) (colStr : Str) (s : Str) : Option Nat :=
  match canonNat? colStr with
  | some c => if c < noOfOptions m then mapGet (buildColMap m c) s else none
  | none => none

/-- Naive decode, column branch: scan the digit entries in ascending key
order for the first one whose symbol at the column equals the value. -/
def scanColFirst (m : Mat) (c : Nat) (s : Str) : Option Nat :=
  (List.range m.length).find? (fun d => msym? m d c == some s)

/-- Naive decode, any-column branch: scan every entry of every row. -/
def scanAny (m : Mat) (s : Str) : Option Nat :=
  (List.range m.length).find? (fun d => (m.getD d []).contains s)

/-- Naive decode with an undefined column (sauce path): any-column scan. -/
def naiveDecAny (m : Mat) (s : Str) : Option Nat := scanAny m s

/-- Naive decode with a numeric column: the source tests the column with
a JS truthiness check (if (col)), so both NaN and the number 0 fall back
to the any-column scan. -/
def naiveDecNum (m : Mat) (c? : Option Nat) (s : Str) : Option Nat :=
  match c? with
  | none => scanAny m s
  | some 0 => scanAny m s
  | some c => scanColFirst m c s

/-- Naive decode with a string column: a nonempty string is truthy (even
the string 0), so the column branch runs with the string as array index;
a non-canonical index matches no entry. -/
def naiveDecStr (m : Mat) (colStr : Str) (s : Str) : Option Nat :=
  if colStr = [] then scanAny m s
  else
    match canonNat? colStr with
    | some c => scanColFirst m c s
    | none => none

/-! ## The encoder -/

/-- Sequence a fallible function over a list (loop that aborts on the
first failure). -/
def seqOpt {α β : Type} (f : α → Option β) : List α → Option (List β)
  | [] => some []
  | a :: t => (f a).bind fun b => (seqOpt f t).map fun r => b :: r

/-- encodeDigit(digit, index): values below 9 are substituted directly;
from 9 on, each decimal digit of the value is substituted and the results
concatenated (at the boundary value 9 the two branches agree).  An
out-of-range matrix access is modelled as `none` (the JS code would fail
on it; unreachable under a valid table). -/
def encodeDigit? (m : Mat) (n c : Nat) : Option Str :=
  if n < 9 then msym? m n c
  else (seqOpt (fun d => msym? m d c) (natDigits n)).map List.flatten

/-! ## generateKey

The random choices of the source (the Fisher-Yates shuffle outcome, the
metadata column, and the per-digit value columns) are taken as inputs:
sh is the shuffled digit sequence, c the metadata column, and vcols the
value columns in emission order.  The per-digit queues of original
positions (indexMap) are a function from digit value to its pending
ascending position list. -/

/-- The ascending list of positions at which digit d occurs in time
(the initial indexMap queue for d). -/
def positionsOf (time : List Nat) (d : Nat) : List Nat :=
  (List.range time.length).filter (fun i => time.getD i 10 = d)

/-- One body chunk for an emitted digit: encoded digit, then the two
length-prefixed metadata fields. -/
def chunkOf (m : Mat) (c : Nat) (dvp : Nat × Nat × Nat) : Option Str :=
  (encodeDigit? m dvp.1 dvp.2.1).bind fun ed =>
  (encodeDigit? m dvp.2.1 c).bind fun ee =>
  (encodeDigit? m dvp.2.2 c).map fun ep =>
  ed ++ natChars ee.length ++ ee ++ natChars ep.length ++ ep

/-- Walk the shuffled (digit, value column) pairs, popping the next pending
original position of each digit (indicesQueue.shift()); produces the
(digit, value column, original position) triples in emission order.
A pop from an exhausted or missing queue is the JS crash case (`none`). -/
def genTrace : List (Nat × Nat) → (Nat → List Nat) → Option (List (Nat × Nat × Nat))
  | [], _ => some []
  | (d, v) :: rest, q =>
    match q d with
    | [] => none
    | p :: ps =>
      (genTrace rest (fun x => if x = d then ps else q x)).map
        (fun tr => (d, v, p) :: tr)

/-- The concatenated body of the key (the keyParts join). -/
def genBody (m : Mat) (c : Nat) (pairs : List (Nat × Nat)) (q : Nat → List Nat) :
    Option Str :=
  (genTrace pairs q).bind fun tr => (seqOpt (chunkOf m c) tr).map List.flatten

/-- generateKey: body from the shuffled digits, sauce from the metadata
column index encoded against itself, joined with the separator. -/
def generateKey? (m : Mat) (sep : Char) (time : List Nat) (sh : List Nat)
    (c : Nat) (vcols : List Nat) : Option Str :=
  (genBody m c (sh.zip vcols) (positionsOf time)).bind fun body =>
  ((seqOpt (fun d => msym? m d c) (natDigits c)).map List.flatten).map fun sauce =>
  sauce ++ [sep] ++ body

/-! ## decodeKey

The decode loop manipulates JS numbers that are non-negative integers or
NaN.  NaN propagates through addition; the string NaN has length 3; JS
substring converts NaN to 0, clamps both arguments to the string length
and swaps them when out of order. -/

/-- NaN-propagating addition. -/
def oadd : Option Nat → Option Nat → Option Nat
  | some a, some b => some (a + b)
  | _, _ => none

/-- Length of n.toString() (NaN.toString() is the 3-character string NaN). -/
def jsLen : Option Nat → Nat
  | none => 3
  | some n => (natChars n).length

/-- JS String.prototype.substring with possibly-NaN arguments. -/
def jsSub (s : Str) (a b : Option Nat) : Str :=
  let ia := min (a.getD 0) s.length
  let ib := min (b.getD 0) s.length
  (s.drop (min ia ib)).take (max ia ib - min ia ib)

/-- startingNumber: parseInt of the leading run of ASCII digits. -/
def startingNumber (s : Str) : Option Nat :=
  parseIntDigits (s.takeWhile isDigitCh)

/-- decodeDigit(encodedDigit, baseSize, index), generic in the
single-symbol decode for the given column: strings shorter than 2
characters are decoded in one step, otherwise the string is chunked into
baseSize pieces, each decoded and the digit strings concatenated. -/
def decodeDigitG (dec1 : Str → Option Nat) (bs : Nat) (s : Str) : Option Str :=
  if s.length < 2 then (dec1 s).map natChars
  else (seqOpt dec1 (parts s bs)).map (fun ds => (ds.map natChars).flatten)

/-- The decode loop over the body.  The cursor i walks the key; fuel is an
upper bound on the number of iterations (each iteration advances the
cursor by at least 2, so key.length + 1 can never run out); originalTime
is the accumulated JS object mapping position strings to digit strings. -/
def decodeChunks (decN : Option Nat → Str → Option Nat)
    (decS : Str → Str → Option Nat) (bs : Nat) (key : Str)
    (colIdx : Option Nat) :
    Nat → Nat → List (Str × Str) → Option (List (Str × Str))
  | 0, _, _ => none
  | fuel + 1, i, acc =>
    if i < key.length then
      let encodedDigit := jsSub key (some i) (some (i + bs))
      let size1 := startingNumber (key.drop (i + bs))
      let s1from := i + bs + jsLen size1
      let encEnc := jsSub key (some s1from) (oadd (some s1from) size1)
      let s2start := oadd (some s1from) size1
      let size2 := startingNumber (jsSub key s2start (some key.length))
      let s2from := s2start.map (fun x => x + jsLen size2)
      let encOrig := jsSub key s2from (oadd s2from size2)
      let iNext := oadd (oadd (some (i + bs + jsLen size1 + jsLen size2)) size1) size2
      (decodeDigitG (decN colIdx) bs encEnc).bind fun encIdxStr =>
      (decodeDigitG (decS encIdxStr) bs encodedDigit).bind fun digitStr =>
      (decodeDigitG (decN colIdx) bs encOrig).bind fun posStr =>
      let acc2 := mapSet acc posStr digitStr
      match iNext with
      | none => some acc2
      | some j => decodeChunks decN decS bs key colIdx fuel j acc2
    else some acc

/-- Object.values ordering of a JS object: entries under canonical
array-index keys first, in ascending numeric order, then the remaining
entries in insertion order. -/
def objValues (l : List (Str × Str)) : List Str :=
  let canon := l.filter (fun p => isCanonIndex p.1)
  let rest := l.filter (fun p => !(isCanonIndex p.1))
  ((canon.insertionSort (fun a b => digitsToNat (a.1.map chDigit) ≤ digitsToNat (b.1.map chDigit))).map
      (fun p => p.2) ++ rest.map (fun p => p.2))

/-- The three decode entry points of a decoder variant: the sauce path
(undefined column), a numeric column, and a digit-string column. -/
structure DecPrim where
  any : Mat → Str → Option Nat
  num : Mat → Option Nat → Str → Option Nat
  stringCol : Mat → Str → Str → Option Nat

/-- Correctness of a decode-primitive bundle over a table: each entry point
recovers the digit of a symbol when asked with the column the symbol was
encoded with (the any entry needs no column). -/
structure DecOK (dec : DecPrim) (m : Mat) (N : Nat) : Prop where
  anyOK : ∀ d c, d < 10 → c < N → dec.any m (msym m d c) = some d
  numOK : ∀ d c, d < 10 → c < N → dec.num m (some c) (msym m d c) = some d
  strOK : ∀ d c, d < 10 → c < N →
    dec.stringCol m (natChars c) (msym m d c) = some d

/-- decodeKey, generic in the decode primitives.  Throwing is `.error ()`;
a returned value is `.ok`, with `none` standing for NaN. -/
def decodeKeyG (dec : DecPrim) (m : Mat) (sep : Char) (encoded : Str) :
    Except Unit (Option Nat) :=
  let bs := baseSize m
  let sepIdx? : Option Nat :=
    if encoded.contains sep then some (encoded.findIdx (fun ch => ch == sep)) else none
  let sauce := match sepIdx? with | some k => encoded.take k | none => []
  let key := match sepIdx? with | some k => encoded.drop (k + 1) | none => encoded
  match seqOpt (fun p => dec.any m p) (parts sauce bs) with
  | none => Except.error ()
  | some ds =>
    let colIdx : Option Nat := parseIntDigits ((ds.map natChars).flatten)
    match decodeChunks (dec.num m) (dec.stringCol m) bs key colIdx
        (key.length + 1) 0 [] with
    | none => Except.error ()
    | some tl => Except.ok (parseIntDigits (objValues tl).flatten)

/-- The optimized decoder of lib/reqseal.js (precomputed decode maps). -/
def optPrims : DecPrim :=
  { any := optDecAny, num := optDecNum, stringCol := optDecStr }

/-- The naive decoder variant (matrix scanning, truthiness column test). -/
def naivePrims : DecPrim :=
  { any := naiveDecAny, num := naiveDecNum, stringCol := naiveDecStr }

/-- decodeKey of the optimized class. -/
def decodeKey (m : Mat) (sep : Char) (s : Str) : Except Unit (Option Nat) :=
  decodeKeyG optPrims m sep s

/-- decodeKey of the naive class. -/
def naiveDecodeKey (m : Mat) (sep : Char) (s : Str) : Except Unit (Option Nat) :=
  decodeKeyG naivePrims m sep s

/-! ## The verifier (src/express-mw.js)

verifyKey decodes the token with the optimized class, checks the decoded
value for NaN, checks the clock drift against the skew window, and then
consults the optional replay cache.  The in-memory replay cache is a map
from cache key to expiry instant; has ignores the stored expiry, which is
only acted on by the periodic sweep. -/

/-- The rejection reasons of verifyKey (each a distinct thrown Error in the
source; the middleware reports them all with one generic message). -/
inductive VerifyErr
  | invalid
  | nanTimestamp
  | expired
  | replay
  deriving DecidableEq, Repr

/-- The store of the in-memory replay cache: cache key with expiresAt. -/
abbrev CacheStore := List (Str × Nat)

/-- has(key): pure membership; the stored expiry instant is ignored. -/
def cacheHas (st : CacheStore) (k : Str) : Bool := st.any (fun p => p.1 == k)

/-- add(key): store.set(key, Date.now() + ttlMs). -/
def cacheAdd (st : CacheStore) (k : Str) (now ttl : Nat) : CacheStore :=
  mapSet st k (now + ttl)

/-- One tick of the sweeping interval: delete every entry whose expiry is
at or before the current instant. -/
def sweepCache (st : CacheStore) (now : Nat) : CacheStore :=
  st.filter (fun p => !(p.2 ≤ now))

/-- The replay-cache key: timestamp, a literal colon, the token string. -/
def replayCacheKey (t : Nat) (key : Str) : Str :=
  natChars t ++ [':'] ++ key

/-- verifyKey(key): returns the decoded timestamp or a rejection, paired
with the replay-cache store after the call (unchanged when no cache is
configured).  now is the instant of the call (getNow() of the middleware
and Date.now() of the cache add). -/
def verifyKey (m : Mat) (sep : Char) (skew ttl now : Nat)
    (cache? : Option CacheStore) (key : Str) :
    Except VerifyErr Nat × Option CacheStore :=
  match decodeKey m sep key with
  | Except.error _ => (Except.error VerifyErr.invalid, cache?)
  | Except.ok none => (Except.error VerifyErr.nanTimestamp, cache?)
  | Except.ok (some t) =>
    if skew < Nat.dist now t then (Except.error VerifyErr.expired, cache?)
    else
      match cache? with
      | none => (Except.ok t, none)
      | some st =>
        let ck := replayCacheKey t key
        if cacheHas st ck then (Except.error VerifyErr.replay, some st)
        else (Except.ok t, some (cacheAdd st ck now ttl))

/-! ## Proof-side abbreviations

Closed forms, under a valid table, of what the encoder emits; these are
not source translations but derived shapes used to state lemmas. -/

/-- The encoding of the decimal digits of n, substituted in column c. -/
def esym (m : Mat) (c n : Nat) : Str :=
  ((natDigits n).map (fun dg => msym m dg c)).flatten

/-- The body chunk emitted for the triple (digit, value column, position)
under metadata column c, in its closed form. -/
def chunkStr (m : Mat) (c : Nat) (x : Nat × Nat × Nat) : Str :=
  esym m x.2.1 x.1 ++ natChars (esym m c x.2.1).length ++ esym m c x.2.1
    ++ natChars (esym m c x.2.2).length ++ esym m c x.2.2

/-! ## Concrete tables and tokens -/

/-- The example matrix of the repository (README / common-mod.js), with
rows listed in ascending digit order as JS iterates them. -/
def exMat : Mat :=
  [[['/'],['*'],['='],['?'],['!'],['@']],
   [['A'],['a'],['B'],['b'],['C'],['c']],
   [['D'],['d'],['E'],['e'],['F'],['f']],
   [['G'],['g'],['H'],['h'],['I'],['i']],
   [['J'],['j'],['K'],['k'],['L'],['l']],
   [['M'],['m'],['N'],['n'],['O'],['o']],
   [['P'],['p'],['Q'],['q'],['R'],['r']],
   [['S'],['s'],['T'],['t'],['U'],['u']],
   [['V'],['v'],['W'],['w'],['X'],['x']],
   [['Y'],['y'],['Z'],['z'],['+'],['-']]]

/-- A table mapping every digit to its own character: it satisfies all the
invariants the specification states for tables (ten digits, one column,
uniform symbol length one, global uniqueness). -/
def idMat : Mat := (List.range 10).map (fun d => [[digitChar d]])

/-- A table with a global-uniqueness violation: the symbol X occurs in the
rows of both digit 0 and digit 1. -/
def dupMat : Mat :=
  [[['X']],[['X']],[['A']],[['B']],[['C']],[['D']],[['E']],[['F']],
   [['G']],[['H']]]

/-- A token over exMat carrying timestamp 12 (metadata column 0, value
columns 0). -/
def tok12 : Str := ['/', ':', 'A', '1', '/', '1', '/', 'D', '1', '/', '1', 'A']

/-! ### Theorems -/

section UnfoldLemmas

theorem natDigitsAux_eq (n : Nat) : ∀ f, n < f → natDigitsAux f n = natDigits n := by
  induction n using Nat.strong_induction_on with
  | _ n ih =>
    intro f hf
    rcases f with _ | f
    · omega
    · show natDigitsAux (f + 1) n = natDigitsAux (n + 1) n
      simp only [natDigitsAux]
      by_cases h : n < 10
      · simp [h]
      · rw [if_neg h, if_neg h]
        have h1 : n / 10 < n := Nat.div_lt_self (by omega) (by omega)
        rw [ih (n / 10) h1 f (by omega), ih (n / 10) h1 n (by omega)]

theorem natDigits_unfold (n : Nat) :
    natDigits n = if n < 10 then [n] else natDigits (n / 10) ++ [n % 10] := by
  show natDigitsAux (n + 1) n = _
  simp only [natDigitsAux]
  by_cases h : n < 10
  · simp [h]
  · rw [if_neg h, if_neg h]
    have h1 : n / 10 < n := Nat.div_lt_self (by omega) (by omega)
    rw [natDigitsAux_eq (n / 10) n (by omega)]

theorem partsAux_nil (f cs : Nat) : partsAux f [] cs = [] := by
  cases f <;> simp [partsAux]

theorem partsAux_congr (cs : Nat) (hcs : cs ≠ 0) :
    ∀ (f₁ : Nat) (s : Str) (f₂ : Nat), s.length ≤ f₁ → s.length ≤ f₂ →
      partsAux f₁ s cs = partsAux f₂ s cs := by
  intro f₁
  induction f₁ with
  | zero =>
    intro s f₂ h1 h2
    have hs : s = [] := by
      rcases s with _ | _
      · rfl
      · simp at h1
    subst hs
    rw [partsAux_nil, partsAux_nil]
  | succ f ih =>
    intro s f₂ h1 h2
    rcases s with _ | ⟨a, t⟩
    · rw [partsAux_nil, partsAux_nil]
    · rcases f₂ with _ | f₂
      · simp at h2
      · simp only [partsAux, if_neg (show ¬(a :: t : Str) = [] by simp)]
        congr 1
        apply ih
        · simp only [List.length_drop, List.length_cons] at h1 ⊢
          omega
        · simp only [List.length_drop, List.length_cons] at h2 ⊢
          omega

theorem parts_unfold (s : Str) (cs : Nat) (hcs : cs ≠ 0) :
    parts s cs = if s = [] then [] else s.take cs :: parts (s.drop cs) cs := by
  rw [parts, if_neg hcs]
  rcases s with _ | ⟨a, t⟩
  · simp [partsAux_nil]
  · rw [if_neg (show ¬(a :: t : Str) = [] by simp)]
    simp only [List.length_cons, partsAux, if_neg (show ¬(a :: t : Str) = [] by simp)]
    congr 1
    rw [parts, if_neg hcs]
    apply partsAux_congr cs hcs
    · simp only [List.length_drop, List.length_cons]
      omega
    · exact le_refl _

end UnfoldLemmas

section DigitLemmas

theorem digitsToNat_append (l₁ l₂ : List Nat) :
    digitsToNat (l₁ ++ l₂) = l₂.foldl (fun a d => 10 * a + d) (digitsToNat l₁) := by
  simp [digitsToNat, List.foldl_append]

theorem natDigits_lt (n : Nat) : ∀ d ∈ natDigits n, d < 10 := by
  induction n using Nat.strong_induction_on with
  | _ n ih =>
    intro d hd
    rw [natDigits_unfold] at hd
    by_cases h : n < 10
    · simp [h] at hd; omega
    · rw [if_neg h, List.mem_append, List.mem_singleton] at hd
      rcases hd with hd | hd
      · exact ih (n / 10) (Nat.div_lt_self (by omega) (by omega)) d hd
      · subst hd; exact Nat.mod_lt _ (by omega)

theorem natDigits_ne_nil (n : Nat) : natDigits n ≠ [] := by
  rw [natDigits_unfold]
  by_cases h : n < 10 <;> simp [h]

theorem digitsToNat_natDigits (n : Nat) : digitsToNat (natDigits n) = n := by
  induction n using Nat.strong_induction_on with
  | _ n ih =>
    rw [natDigits_unfold]
    by_cases h : n < 10
    · simp [h, digitsToNat]
    · rw [if_neg h, digitsToNat_append]
      rw [ih (n / 10) (Nat.div_lt_self (by omega) (by omega))]
      simp [digitsToNat]
      omega

theorem natDigits_head_pos (n : Nat) (hn : 10 ≤ n) :
    ∃ d l, natDigits n = d :: l ∧ 0 < d := by
  induction n using Nat.strong_induction_on with
  | _ n ih =>
    rw [natDigits_unfold, if_neg (by omega)]
    by_cases h10 : n / 10 < 10
    · refine ⟨n / 10, [n % 10], ?_, ?_⟩
      · rw [natDigits_unfold]
        simp [h10]
      · omega
    · obtain ⟨d, l, hdl, hd⟩ := ih (n / 10) (Nat.div_lt_self (by omega) (by omega)) (by omega)
      exact ⟨d, l ++ [n % 10], by rw [hdl]; simp, hd⟩

theorem chDigit_digitChar (d : Nat) (hd : d < 10) : chDigit (digitChar d) = d := by
  interval_cases d <;> rfl

theorem isDigitCh_digitChar (d : Nat) (hd : d < 10) : isDigitCh (digitChar d) = true := by
  interval_cases d <;> rfl

theorem natChars_ne_nil (n : Nat) : natChars n ≠ [] := by
  simp [natChars]
  exact natDigits_ne_nil n

theorem parseIntDigits_natChars (n : Nat) : parseIntDigits (natChars n) = some n := by
  rw [parseIntDigits, if_neg (natChars_ne_nil n)]
  congr 1
  have hmap : (natChars n).map chDigit = natDigits n := by
    simp only [natChars, List.map_map]
    rw [List.map_congr_left, List.map_id]
    intro d hd
    exact chDigit_digitChar d (natDigits_lt n d hd)
  rw [hmap, digitsToNat_natDigits]

theorem natChars_injective : Function.Injective natChars := by
  intro a b hab
  have ha := parseIntDigits_natChars a
  rw [hab, parseIntDigits_natChars] at ha
  exact (Option.some_injective _ ha).symm

end DigitLemmas

theorem parts_nil (cs : Nat) : parts [] cs = [] := by
  by_cases h : cs = 0 <;> simp [parts, h, partsAux_nil]

/-- Chunking a concatenation of strings of length exactly cs ≥ 1 recovers
the list of strings. -/
theorem parts_join (cs : Nat) (hcs : 1 ≤ cs) :
    ∀ l : List Str, (∀ s ∈ l, s.length = cs) → parts l.flatten cs = l := by
  intro l
  induction l with
  | nil => intro _; exact parts_nil cs
  | cons a t ih =>
    intro hlen
    have ha : a.length = cs := hlen a (by simp)
    have hne : a ++ t.flatten ≠ [] := by
      intro hcontra
      have := congrArg List.length hcontra
      simp [ha] at this
      omega
    rw [List.flatten_cons, parts_unfold _ _ (by omega), if_neg hne]
    congr 1
    · rw [List.take_append_eq_append_take, List.take_of_length_le (by omega),
        ha, Nat.sub_self, List.take_zero, List.append_nil]
    · rw [List.drop_append_eq_append_drop, List.drop_of_length_le (by omega),
        ha, Nat.sub_self, List.drop_zero, List.nil_append]
      exact ih (fun s hs => hlen s (by simp [hs]))

section MapLemmas

theorem mapGet_mapSet {β : Type} (l : List (Str × β)) (k k' : Str) (v : β) :
    mapGet (mapSet l k v) k' = if k = k' then some v else mapGet l k' := by
  induction l with
  | nil =>
    by_cases hk : k = k' <;> simp [mapSet, mapGet, hk]
  | cons a t ih =>
    simp only [mapSet]
    by_cases ha : a.1 = k
    · rw [if_pos ha]
      by_cases hk : k = k'
      · simp [mapGet, hk]
      · have ha' : ¬ a.1 = k' := by rw [ha]; exact hk
        simp [mapGet, hk, ha']
    · by_cases hk : k = k'
      · subst hk
        simp [mapGet, ha, ih]
      · simp only [if_neg ha, mapGet]
        by_cases ha' : a.1 = k' <;> simp [ha', ih, hk]

theorem mapGet_mapInsertNew {β : Type} (l : List (Str × β)) (k k' : Str) (v : β) :
    mapGet (mapInsertNew l k v) k' =
      (mapGet l k').orElse (fun _ => if k = k' then some v else none) := by
  induction l with
  | nil =>
    by_cases hk : k = k' <;> simp [mapInsertNew, mapGet, hk]
  | cons a t ih =>
    simp only [mapInsertNew]
    by_cases ha : a.1 = k
    · rw [if_pos ha]
      by_cases hk : k = k'
      · have ha' : a.1 = k' := ha.trans hk
        simp [mapGet, ha']
      · by_cases ha' : a.1 = k' <;> simp [mapGet, ha', hk]
    · simp only [if_neg ha, mapGet]
      by_cases ha' : a.1 = k' <;> simp [ha', ih]

/-- Lookup after a fold of assignments over a list of writes: the last
write to the key wins, falling back to the initial map. -/
theorem mapGet_foldl_set {β : Type} (k : Str) :
    ∀ (ws : List (Str × β)) (init : List (Str × β)),
      mapGet (ws.foldl (fun acc w => mapSet acc w.1 w.2) init) k =
        ((ws.reverse.find? (fun w => w.1 == k)).map (fun w => w.2)).orElse
          (fun _ => mapGet init k) := by
  intro ws
  induction ws with
  | nil => intro init; simp
  | cons w t ih =>
    intro init
    simp only [List.foldl_cons, List.reverse_cons, ih]
    rw [List.find?_append]
    rcases h : t.reverse.find? (fun w => w.1 == k) with _ | w'
    · by_cases hd : w.1 = k
      · simp [h, List.find?_singleton, hd, mapGet_mapSet, Option.orElse]
      · simp [h, List.find?_singleton, show (w.1 == k) = false from by simpa using hd,
          hd, mapGet_mapSet, Option.orElse]
    · simp [h]

/-- Lookup after a fold of guarded insertions over a list of writes: the
first write to the key wins, after the initial map. -/
theorem mapGet_foldl_insertNew {β : Type} (k : Str) :
    ∀ (ws : List (Str × β)) (init : List (Str × β)),
      mapGet (ws.foldl (fun acc w => mapInsertNew acc w.1 w.2) init) k =
        (mapGet init k).orElse
          (fun _ => (ws.find? (fun w => w.1 == k)).map (fun w => w.2)) := by
  intro ws
  induction ws with
  | nil => intro init; simp
  | cons w t ih =>
    intro init
    simp only [List.foldl_cons, ih, mapGet_mapInsertNew]
    rcases h : mapGet init k with _ | v
    · by_cases hd : w.1 = k
      · simp [List.find?_cons, hd, Option.orElse]
      · simp [List.find?_cons, show (w.1 == k) = false from by simpa using hd, hd,
          Option.orElse]
    · simp

/-- Folding with an optional-write step equals folding the materialized
write list. -/
theorem foldl_filterMap {α β γ : Type} (f : α → Option β) (g : γ → β → γ) :
    ∀ (l : List α) (init : γ),
      (l.filterMap f).foldl g init =
        l.foldl (fun acc a => match f a with | some b => g acc b | none => acc) init := by
  intro l
  induction l with
  | nil => intro init; rfl
  | cons a t ih =>
    intro init
    rcases h : f a with _ | b <;>
      simp [List.filterMap_cons, h, ih]

/-- Folding over a flatMap equals the nested fold. -/
theorem foldl_flatMap {α β γ : Type} (f : α → List β) (g : γ → β → γ) :
    ∀ (l : List α) (init : γ),
      (l.flatMap f).foldl g init = l.foldl (fun acc a => (f a).foldl g acc) init := by
  intro l
  induction l with
  | nil => intro init; rfl
  | cons a t ih =>
    intro init
    simp [List.flatMap_cons, List.foldl_append, ih]

end MapLemmas

theorem buildColMap_eq_foldl (m : Mat) (c : Nat) :
    buildColMap m c = (colWrites m c).foldl (fun acc w => mapSet acc w.1 w.2) [] := by
  rw [buildColMap, colWrites, foldl_filterMap]
  congr 1
  funext acc d
  rcases msym? m d c with _ | v <;> simp

theorem buildAnyMap_eq_foldl (m : Mat) :
    buildAnyMap m = (anyWrites m).foldl (fun acc w => mapInsertNew acc w.1 w.2) [] := by
  rw [buildAnyMap, anyWrites, foldl_flatMap]
  congr 1
  funext acc d
  rw [foldl_filterMap]
  congr 1
  funext acc2 c
  rcases msym? m d c with _ | v <;> simp

/-- Lookup in a per-column decode map returns the digit of the last entry
written under that symbol. -/
theorem mapGet_buildColMap (m : Mat) (c : Nat) (k : Str) :
    mapGet (buildColMap m c) k =
      ((colWrites m c).reverse.find? (fun w => w.1 == k)).map (fun w => w.2) := by
  rw [buildColMap_eq_foldl, mapGet_foldl_set]
  rcases h : (colWrites m c).reverse.find? (fun w => w.1 == k) with _ | w <;>
    simp [mapGet]

/-- Lookup in the any-column decode map returns the digit of the first
entry written under that symbol. -/
theorem mapGet_buildAnyMap (m : Mat) (k : Str) :
    mapGet (buildAnyMap m) k =
      ((anyWrites m).find? (fun w => w.1 == k)).map (fun w => w.2) := by
  rw [buildAnyMap_eq_foldl, mapGet_foldl_insertNew]
  rcases h : (anyWrites m).find? (fun w => w.1 == k) with _ | w <;>
    simp [mapGet]

theorem seqOpt_append {α β : Type} (f : α → Option β) (l₁ l₂ : List α) :
    seqOpt f (l₁ ++ l₂) =
      (seqOpt f l₁).bind fun r₁ => (seqOpt f l₂).map fun r₂ => r₁ ++ r₂ := by
  induction l₁ with
  | nil => simp [seqOpt]
  | cons a t ih =>
    simp only [List.cons_append, seqOpt]
    rcases f a with _ | b
    · simp
    · rcases hft : seqOpt f t with _ | r₁ <;>
        rcases hfl : seqOpt f l₂ with _ | r₂ <;>
          simp [ih, hft, hfl]

/-- encodeDigit always lands on the concatenation of the symbols of the
decimal digits of the value (the two branches agree at the boundary 9). -/
theorem encodeDigit_eq (m : Mat) (n c : Nat) :
    encodeDigit? m n c =
      (seqOpt (fun d => msym? m d c) (natDigits n)).map List.flatten := by
  rw [encodeDigit?]
  by_cases h : n < 9
  · rw [if_pos h]
    have hdig : natDigits n = [n] := by
      rw [natDigits_unfold, if_pos (by omega)]
    rw [hdig]
    rcases hms : msym? m n c with _ | s <;> simp [seqOpt, hms]
  · rw [if_neg h]

section TableLemmas

theorem noOfOptions_eq {m : Mat} {N bs : Nat} (hv : ValidTable m N bs) :
    noOfOptions m = N := by
  rcases m with _ | ⟨r, rest⟩
  · exact absurd hv.len10 (by simp)
  · exact hv.rowLen r (by simp)

theorem baseSize_eq {m : Mat} {N bs : Nat} (hv : ValidTable m N bs) :
    baseSize m = bs := by
  rcases m with _ | ⟨r, rest⟩
  · exact absurd hv.len10 (by simp)
  · have hr : r.length = N := hv.rowLen r (by simp)
    rcases r with _ | ⟨sym, rtail⟩
    · have := hv.Npos
      simp at hr
      omega
    · exact hv.symLen (sym :: rtail) (by simp) sym (by simp)

end TableLemmas

section DecodeHelpers

/-- decodeDigit with a decode primitive that always misses (such as a NaN
column in the optimized decoder) always throws. -/
theorem decodeDigitG_of_none (dec1 : Str → Option Nat)
    (h1 : ∀ x, dec1 x = none) (bs : Nat) (hbs : 1 ≤ bs) (s : Str) :
    decodeDigitG dec1 bs s = none := by
  rw [decodeDigitG]
  by_cases h : s.length < 2
  · simp [h, h1]
  · rw [if_neg h]
    have hsne : s ≠ [] := by
      intro hs
      subst hs
      simp at h
    rw [parts_unfold _ _ (by omega), if_neg hsne]
    simp [seqOpt, h1]

end DecodeHelpers

section CacheLemmas

theorem cacheHas_mapSet_self (st : CacheStore) (k : Str) (v : Nat) :
    cacheHas (mapSet st k v) k = true := by
  induction st with
  | nil => simp [mapSet, cacheHas]
  | cons p t ih =>
    rw [mapSet]
    by_cases hp : p.1 = k
    · simp [cacheHas, hp]
    · simp only [if_neg hp, cacheHas, List.any_cons]
      rw [cacheHas] at ih
      simp [ih]

theorem cacheHas_sweep_false (st : CacheStore) (k : Str) (now : Nat)
    (hexp : ∀ p ∈ st, p.1 = k → p.2 ≤ now) :
    cacheHas (sweepCache st now) k = false := by
  rw [cacheHas, sweepCache]
  simp only [List.any_eq_false]
  intro p hp
  rw [List.mem_filter] at hp
  simp only [beq_iff_eq]
  intro hk
  have := hexp p hp.1 hk
  have hkeep := hp.2
  simp at hkeep
  omega

end CacheLemmas

section MoreHelpers

theorem contains_eq_false {a : Char} {l : Str} (h : a ∉ l) : l.contains a = false := by
  induction l with
  | nil => rfl
  | cons b t ih =>
    have hab : ¬ (a = b) := fun hc => h (by simp [hc])
    have hat : a ∉ t := fun hc => h (by simp [hc])
    simp only [List.contains_cons, Bool.or_eq_false_iff]
    exact ⟨beq_eq_false_iff_ne.mpr hab, ih hat⟩

/-- When the metadata column parsed from the sauce is NaN, the optimized
decode of the first body chunk always throws. -/
theorem decodeChunks_nan_col (decN : Option Nat → Str → Option Nat)
    (decS : Str → Str → Option Nat) (bs : Nat) (key : Str)
    (hd : ∀ x, decN none x = none) (hbs : 1 ≤ bs) (fuel i : Nat)
    (hi : i < key.length) (acc : List (Str × Str)) :
    decodeChunks decN decS bs key none (fuel + 1) i acc = none := by
  rw [decodeChunks, if_pos hi]
  simp only [decodeDigitG_of_none (decN none) hd bs hbs, Option.none_bind]

theorem exMat_valid : ValidTable exMat 6 1 := by
  refine ⟨?_, ?_, ?_, ?_, ?_, ?_, ?_⟩ <;> decide

theorem idMat_valid : ValidTable idMat 1 1 := by
  refine ⟨?_, ?_, ?_, ?_, ?_, ?_, ?_⟩ <;> decide

end MoreHelpers

section SymbolLemmas

theorem get?_eq_some_getD {α : Type} (l : List α) (d₀ : α) :
    ∀ i, i < l.length → l.get? i = some (l.getD i d₀) := by
  induction l with
  | nil =>
    intro i h
    simp at h
  | cons a t ih =>
    intro i h
    rcases i with _ | i
    · rfl
    · exact ih i (by simp at h; omega)

theorem getD_eq_get {α : Type} (l : List α) (d₀ : α) (i : Nat) (h : i < l.length) :
    l.getD i d₀ = l.get ⟨i, h⟩ := by
  have h1 := get?_eq_some_getD l d₀ i h
  rw [List.get?_eq_get h] at h1
  exact (Option.some_injective _ h1).symm

theorem row_getD_mem {m : Mat} {N bs : Nat} (hv : ValidTable m N bs)
    {d : Nat} (hd : d < 10) : m.getD d [] ∈ m := by
  have hd' : d < m.length := by rw [hv.len10]; omega
  exact List.get?_mem (get?_eq_some_getD m [] d hd')

theorem row_length {m : Mat} {N bs : Nat} (hv : ValidTable m N bs)
    {d : Nat} (hd : d < 10) : (m.getD d []).length = N :=
  hv.rowLen _ (row_getD_mem hv hd)

theorem msym_mem_row {m : Mat} {N bs : Nat} (hv : ValidTable m N bs)
    {d c : Nat} (hd : d < 10) (hc : c < N) : msym m d c ∈ m.getD d [] := by
  rw [msym, getD_eq_get _ _ c (by rw [row_length hv hd]; omega)]
  exact List.get_mem _ _ _

theorem msym_len {m : Mat} {N bs : Nat} (hv : ValidTable m N bs)
    {d c : Nat} (hd : d < 10) (hc : c < N) : (msym m d c).length = bs :=
  hv.symLen _ (row_getD_mem hv hd) _ (msym_mem_row hv hd hc)

theorem msym?_eq {m : Mat} {N bs : Nat} (hv : ValidTable m N bs)
    {d c : Nat} (hd : d < 10) (hc : c < N) :
    msym? m d c = some (msym m d c) := by
  have hd' : d < m.length := by rw [hv.len10]; omega
  rw [msym?, get?_eq_some_getD m [] d hd', Option.some_bind,
    get?_eq_some_getD _ [] c (by rw [row_length hv hd]; omega)]
  rfl

theorem msym?_inv {m : Mat} {d c : Nat} {v : Str} (h : msym? m d c = some v) :
    v = msym m d c ∧ d < m.length ∧ c < (m.getD d []).length := by
  rw [msym?] at h
  rcases hr : m.get? d with _ | row
  · rw [hr] at h
    simp at h
  · rw [hr, Option.some_bind] at h
    obtain ⟨hd, hget⟩ := List.get?_eq_some.mp hr
    obtain ⟨hc, hgetc⟩ := List.get?_eq_some.mp h
    have hrow : m.getD d [] = row := by
      rw [getD_eq_get m [] d hd, hget]
    refine ⟨?_, hd, ?_⟩
    · rw [msym, hrow, getD_eq_get row [] c hc, hgetc]
    · rw [hrow]
      exact hc

/-- Global uniqueness: a symbol determines its digit row and column. -/
theorem msym_inj {m : Mat} {N bs : Nat} (hv : ValidTable m N bs)
    {d c d' c' : Nat} (hd : d < 10) (hc : c < N) (hd' : d' < 10) (hc' : c' < N)
    (heq : msym m d c = msym m d' c') : d = d' ∧ c = c' := by
  have hnd := hv.nodup
  rw [List.nodup_flatten] at hnd
  obtain ⟨hrows, hdisj⟩ := hnd
  by_cases hdd : d = d'
  · subst hdd
    refine ⟨rfl, ?_⟩
    have hrl : (m.getD d []).length = N := row_length hv hd
    have hnd_row : (m.getD d []).Nodup := hrows _ (row_getD_mem hv hd)
    rw [msym, msym, getD_eq_get _ _ c (by omega), getD_eq_get _ _ c' (by omega)]
      at heq
    have := (List.Nodup.get_inj_iff hnd_row).mp heq
    simpa using congrArg Fin.val this
  · exfalso
    have hdm : d < m.length := by rw [hv.len10]; omega
    have hdm' : d' < m.length := by rw [hv.len10]; omega
    have hpg := List.pairwise_iff_get.mp hdisj
    have hmem : msym m d c ∈ m.getD d [] := msym_mem_row hv hd hc
    have hmem' : msym m d c ∈ m.getD d' [] := by
      rw [heq]
      exact msym_mem_row hv hd' hc'
    have hrowd : m.getD d [] = m.get ⟨d, hdm⟩ := getD_eq_get _ _ _ _
    have hrowd' : m.getD d' [] = m.get ⟨d', hdm'⟩ := getD_eq_get _ _ _ _
    rcases Nat.lt_or_ge d d' with hlt | hge
    · have hdis := hpg ⟨d, hdm⟩ ⟨d', hdm'⟩ hlt
      exact hdis (hrowd ▸ hmem) (hrowd' ▸ hmem')
    · have hlt' : d' < d := by omega
      have hdis := hpg ⟨d', hdm'⟩ ⟨d, hdm⟩ hlt'
      exact hdis (hrowd' ▸ hmem') (hrowd ▸ hmem)

/-- find? returns the unique element satisfying the predicate. -/
theorem find?_unique {α : Type} (p : α → Bool) (a : α) :
    ∀ (l : List α), a ∈ l → p a = true → (∀ b ∈ l, p b = true → b = a) →
      l.find? p = some a := by
  intro l
  induction l with
  | nil =>
    intro ha _ _
    simp at ha
  | cons x t ih =>
    intro ha hpa huniq
    rw [List.find?_cons]
    by_cases hx : p x = true
    · rw [hx]
      rw [huniq x (by simp) hx]
    · rw [show p x = false from by simpa using hx]
      simp only [cond_false]
      apply ih ?_ hpa ?_
      · rcases List.mem_cons.mp ha with h | h
        · subst h
          exact absurd hpa hx
        · exact h
      · intro b hb hpb
        exact huniq b (by simp [hb]) hpb

end SymbolLemmas

section DecodeCorrect

theorem natChars_map_chDigit (n : Nat) : (natChars n).map chDigit = natDigits n := by
  simp only [natChars, List.map_map]
  rw [List.map_congr_left, List.map_id]
  intro d hd
  exact chDigit_digitChar d (natDigits_lt n d hd)

theorem digitChar_ne_zero {d : Nat} (hd : d < 10) (h0 : 0 < d) :
    ¬ (digitChar d = Char.ofNat 48) := by
  intro hc
  have h1 : chDigit (digitChar d) = chDigit (Char.ofNat 48) := by rw [hc]
  rw [chDigit_digitChar d hd] at h1
  have h2 : chDigit (Char.ofNat 48) = 0 := by decide
  omega

theorem isCanonIndex_natChars (c : Nat) (hc : c < 4294967295) :
    isCanonIndex (natChars c) = true := by
  rw [isCanonIndex]
  have hall : (natChars c).all isDigitCh = true := by
    rw [List.all_eq_true]
    intro ch hch
    rw [natChars] at hch
    obtain ⟨d, hd, rfl⟩ := List.mem_map.mp hch
    exact isDigitCh_digitChar d (natDigits_lt c d hd)
  have hne : ¬(natChars c = []) := natChars_ne_nil c
  have hval : digitsToNat ((natChars c).map chDigit) = c := by
    rw [natChars_map_chDigit, digitsToNat_natDigits]
  have hlead : (natChars c = [Char.ofNat 48]
      ∨ ¬((natChars c).head? = some (Char.ofNat 48))) := by
    by_cases h10 : c < 10
    · by_cases h0 : c = 0
      · subst h0
        left
        rw [natChars, natDigits_unfold]
        rfl
      · right
        rw [natChars, natDigits_unfold, if_pos h10]
        simp only [List.map_cons, List.map_nil, List.head?_cons,
          Option.some_inj]
        exact digitChar_ne_zero h10 (by omega)
    · right
      obtain ⟨d, l, hdl, hd0⟩ := natDigits_head_pos c (by omega)
      have hdlt : d < 10 := natDigits_lt c d (by rw [hdl]; simp)
      rw [natChars, hdl]
      simp only [List.map_cons, List.head?_cons, Option.some_inj]
      exact digitChar_ne_zero hdlt hd0
  rcases hlead with hl | hl
  · rw [hl]
    decide
  · simp [hall, hne, hval, hl, hc]

theorem canonNat?_natChars (c : Nat) (hc : c < 4294967295) :
    canonNat? (natChars c) = some c := by
  rw [canonNat?, if_pos (isCanonIndex_natChars c hc)]
  rw [natChars_map_chDigit, digitsToNat_natDigits]

theorem colWrites_mem {m : Mat} {N bs : Nat} (hv : ValidTable m N bs)
    {d c : Nat} (hd : d < 10) (hc : c < N) :
    (msym m d c, d) ∈ colWrites m c := by
  rw [colWrites, List.mem_filterMap]
  refine ⟨d, by rw [List.mem_range, hv.len10]; omega, ?_⟩
  rw [msym?_eq hv hd hc]
  rfl

theorem colWrites_uniq {m : Mat} {N bs : Nat} (hv : ValidTable m N bs)
    {d c : Nat} (hd : d < 10) (hc : c < N) :
    ∀ w ∈ colWrites m c, w.1 = msym m d c → w = (msym m d c, d) := by
  intro w hw hwk
  rw [colWrites, List.mem_filterMap] at hw
  obtain ⟨d2, hd2, hmap⟩ := hw
  rcases hms : msym? m d2 c with _ | v
  · rw [hms] at hmap
    simp at hmap
  · rw [hms] at hmap
    have hmap2 : (v, d2) = w := by simpa using hmap
    obtain ⟨hv2, hd2len, hc2len⟩ := msym?_inv hms
    have hd2lt : d2 < 10 := by
      rw [hv.len10] at hd2len
      omega
    have hc2lt : c < N := by
      rw [row_length hv hd2lt] at hc2len
      omega
    have hwv : v = msym m d c := by
      rw [← hmap2] at hwk
      exact hwk
    have heqsym : msym m d2 c = msym m d c := by
      rw [← hv2]
      exact hwv
    obtain ⟨hdd, _⟩ := msym_inj hv hd2lt hc2lt hd hc heqsym
    rw [← hmap2, hv2, hdd]

theorem optDecNum_correct {m : Mat} {N bs : Nat} (hv : ValidTable m N bs)
    {d c : Nat} (hd : d < 10) (hc : c < N) :
    optDecNum m (some c) (msym m d c) = some d := by
  show (if c < noOfOptions m then mapGet (buildColMap m c) (msym m d c)
    else none) = some d
  rw [noOfOptions_eq hv, if_pos hc, mapGet_buildColMap]
  have hfind : (colWrites m c).reverse.find? (fun w => w.1 == msym m d c) =
      some (msym m d c, d) := by
    apply find?_unique _ _ _
      (List.mem_reverse.mpr (colWrites_mem hv hd hc)) (by simp)
    intro b hb hpb
    exact colWrites_uniq hv hd hc b (List.mem_reverse.mp hb)
      (by simpa using hpb)
  rw [hfind]
  rfl

theorem anyWrites_mem {m : Mat} {N bs : Nat} (hv : ValidTable m N bs)
    {d c : Nat} (hd : d < 10) (hc : c < N) :
    (msym m d c, d) ∈ anyWrites m := by
  rw [anyWrites, List.mem_flatMap]
  refine ⟨d, by rw [List.mem_range, hv.len10]; omega, ?_⟩
  rw [List.mem_filterMap]
  refine ⟨c, by rw [List.mem_range, noOfOptions_eq hv]; omega, ?_⟩
  rw [msym?_eq hv hd hc]
  rfl

theorem anyWrites_uniq {m : Mat} {N bs : Nat} (hv : ValidTable m N bs)
    {d c : Nat} (hd : d < 10) (hc : c < N) :
    ∀ w ∈ anyWrites m, w.1 = msym m d c → w = (msym m d c, d) := by
  intro w hw hwk
  rw [anyWrites, List.mem_flatMap] at hw
  obtain ⟨d2, hd2, hin⟩ := hw
  rw [List.mem_filterMap] at hin
  obtain ⟨c2, hc2, hmap⟩ := hin
  rcases hms : msym? m d2 c2 with _ | v
  · rw [hms] at hmap
    simp at hmap
  · rw [hms] at hmap
    have hmap2 : (v, d2) = w := by simpa using hmap
    obtain ⟨hv2, hd2len, _⟩ := msym?_inv hms
    have hd2lt : d2 < 10 := by
      rw [hv.len10] at hd2len
      omega
    have hc2lt : c2 < N := by
      rw [List.mem_range, noOfOptions_eq hv] at hc2
      omega
    have hwv : v = msym m d c := by
      rw [← hmap2] at hwk
      exact hwk
    have heqsym : msym m d2 c2 = msym m d c := by
      rw [← hv2]
      exact hwv
    obtain ⟨hdd, hcc⟩ := msym_inj hv hd2lt hc2lt hd hc heqsym
    rw [← hmap2, hv2, hdd, hcc]

theorem optDecAny_correct {m : Mat} {N bs : Nat} (hv : ValidTable m N bs)
    {d c : Nat} (hd : d < 10) (hc : c < N) :
    optDecAny m (msym m d c) = some d := by
  rw [optDecAny, mapGet_buildAnyMap]
  have hfind : (anyWrites m).find? (fun w => w.1 == msym m d c) =
      some (msym m d c, d) := by
    apply find?_unique _ _ _ (anyWrites_mem hv hd hc) (by simp)
    intro b hb hpb
    exact anyWrites_uniq hv hd hc b hb (by simpa using hpb)
  rw [hfind]
  rfl

theorem optDecStr_correct {m : Mat} {N bs : Nat} (hv : ValidTable m N bs)
    {d c : Nat} (hd : d < 10) (hc : c < N) :
    optDecStr m (natChars c) (msym m d c) = some d := by
  have hcb : c < 4294967295 := by
    have := hv.Nbound
    omega
  rw [optDecStr, canonNat?_natChars c hcb]
  exact optDecNum_correct hv hd hc

theorem scanColFirst_correct {m : Mat} {N bs : Nat} (hv : ValidTable m N bs)
    {d c : Nat} (hd : d < 10) (hc : c < N) :
    scanColFirst m c (msym m d c) = some d := by
  rw [scanColFirst]
  apply find?_unique _ _ _ (by rw [List.mem_range, hv.len10]; omega)
    (by rw [msym?_eq hv hd hc]; simp)
  intro d2 hd2 hp
  rw [List.mem_range, hv.len10] at hd2
  have hms : msym? m d2 c = some (msym m d c) := by simpa using hp
  obtain ⟨hv2, _, hc2len⟩ := msym?_inv hms
  have hc2lt : c < N := by
    rw [row_length hv hd2] at hc2len
    omega
  exact (msym_inj hv hd2 hc2lt hd hc hv2.symm).1

theorem scanAny_correct {m : Mat} {N bs : Nat} (hv : ValidTable m N bs)
    {d c : Nat} (hd : d < 10) (hc : c < N) :
    scanAny m (msym m d c) = some d := by
  rw [scanAny]
  apply find?_unique _ _ _ (by rw [List.mem_range, hv.len10]; omega)
    (by
      have := msym_mem_row hv hd hc
      simpa using this)
  intro d2 hd2 hp
  rw [List.mem_range, hv.len10] at hd2
  have hmem : msym m d c ∈ m.getD d2 [] := by simpa using hp
  obtain ⟨i, hi⟩ := List.mem_iff_get.mp hmem
  have hlen2 : (m.getD d2 []).length = N := row_length hv hd2
  have hilt : (i : Nat) < N := by
    have h2 := i.isLt
    omega
  have heqsym : msym m d2 (i : Nat) = msym m d c := by
    rw [msym, getD_eq_get (m.getD d2 []) [] (i : Nat) (by omega)]
    have hfin : (⟨(i : Nat), by omega⟩ : Fin (m.getD d2 []).length) = i :=
      Fin.ext rfl
    rw [hfin, hi]
  exact (msym_inj hv hd2 hilt hd hc heqsym).1

theorem optPrims_ok {m : Mat} {N bs : Nat} (hv : ValidTable m N bs) :
    DecOK optPrims m N := by
  refine ⟨?_, ?_, ?_⟩
  · intro d c hd hc
    exact optDecAny_correct hv hd hc
  · intro d c hd hc
    exact optDecNum_correct hv hd hc
  · intro d c hd hc
    exact optDecStr_correct hv hd hc

theorem naivePrims_ok {m : Mat} {N bs : Nat} (hv : ValidTable m N bs) :
    DecOK naivePrims m N := by
  refine ⟨?_, ?_, ?_⟩
  · intro d c hd hc
    exact scanAny_correct hv hd hc
  · intro d c hd hc
    show naiveDecNum m (some c) (msym m d c) = some d
    rcases c with _ | c2
    · exact scanAny_correct hv hd hc
    · exact scanColFirst_correct hv hd hc
  · intro d c hd hc
    show naiveDecStr m (natChars c) (msym m d c) = some d
    rw [naiveDecStr, if_neg (natChars_ne_nil c)]
    have hcb : c < 4294967295 := by
      have := hv.Nbound
      omega
    rw [canonNat?_natChars c hcb]
    exact scanColFirst_correct hv hd hc

theorem flatten_length_const {l : List Str} {bs : Nat}
    (h : ∀ s ∈ l, s.length = bs) : l.flatten.length = bs * l.length := by
  induction l with
  | nil => simp
  | cons a t ih =>
    rw [List.flatten_cons, List.length_append, h a (by simp),
      ih (fun s hs => h s (by simp [hs]))]
    simp [Nat.mul_succ, List.length_cons]
    omega

theorem seqOpt_map_some {α β : Type} (dec1 : α → Option β) (f : β → α)
    (l : List β) (h : ∀ d ∈ l, dec1 (f d) = some d) :
    seqOpt dec1 (l.map f) = some l := by
  induction l with
  | nil => rfl
  | cons a t ih =>
    rw [List.map_cons, seqOpt, h a (by simp),
      ih (fun d hd => h d (by simp [hd]))]
    rfl

/-- decodeDigit of a concatenation of same-width symbols, each of which the
primitive decodes, recovers the concatenated digit string (both the short
branch and the chunked branch land on this result). -/
theorem decodeDigitG_flatten (dec1 : Str → Option Nat) (bs : Nat)
    (hbs : 1 ≤ bs) (f : Nat → Str) (digs : List Nat) (hne : digs ≠ [])
    (hlen : ∀ d ∈ digs, (f d).length = bs)
    (hdec : ∀ d ∈ digs, dec1 (f d) = some d) :
    decodeDigitG dec1 bs ((digs.map f).flatten) =
      some ((digs.map natChars).flatten) := by
  rw [decodeDigitG]
  rcases digs with _ | ⟨d0, dt⟩
  · exact absurd rfl hne
  · by_cases hsmall : ((d0 :: dt).map f).flatten.length < 2
    · rw [if_pos hsmall]
      rcases dt with _ | ⟨d1, dt2⟩
      · simp only [List.map_cons, List.map_nil, List.flatten_cons,
          List.flatten_nil, List.append_nil]
        rw [hdec d0 (by simp)]
        rfl
      · exfalso
        have hl0 : (f d0).length = bs := hlen d0 (by simp)
        have hl1 : (f d1).length = bs := hlen d1 (by simp)
        simp only [List.map_cons, List.flatten_cons, List.length_append]
          at hsmall
        omega
    · rw [if_neg hsmall]
      have hparts : parts ((d0 :: dt).map f).flatten bs = (d0 :: dt).map f := by
        apply parts_join bs hbs
        intro s hs
        obtain ⟨d, hd, rfl⟩ := List.mem_map.mp hs
        exact hlen d hd
      rw [hparts, seqOpt_map_some dec1 f _ hdec]
      rfl

end DecodeCorrect

section EncoderShape

theorem seqOpt_eq_map {α β : Type} (f : α → Option β) (g : α → β)
    (l : List α) (h : ∀ a ∈ l, f a = some (g a)) :
    seqOpt f l = some (l.map g) := by
  induction l with
  | nil => rfl
  | cons a t ih =>
    rw [seqOpt, h a (by simp), ih (fun x hx => h x (by simp [hx]))]
    rfl

theorem flatten_singletons {α β : Type} (f : α → β) (l : List α) :
    (l.map (fun a => [f a])).flatten = l.map f := by
  induction l with
  | nil => rfl
  | cons a t ih => simp [ih]

theorem flatten_natChars_digits (n : Nat) :
    ((natDigits n).map natChars).flatten = natChars n := by
  have h : ∀ dg ∈ natDigits n, natChars dg = [digitChar dg] := by
    intro dg hdg
    rw [natChars, natDigits_unfold, if_pos (natDigits_lt n dg hdg)]
    rfl
  rw [List.map_congr_left h, flatten_singletons]
  rfl

theorem encodeDigit_esym {m : Mat} {N bs : Nat} (hv : ValidTable m N bs)
    {c : Nat} (hc : c < N) (n : Nat) :
    encodeDigit? m n c = some (esym m c n) := by
  rw [encodeDigit_eq, esym,
    seqOpt_eq_map _ (fun dg => msym m dg c) _
      (fun dg hdg => msym?_eq hv (natDigits_lt n dg hdg) hc)]
  rfl

theorem esym_len {m : Mat} {N bs : Nat} (hv : ValidTable m N bs)
    {c : Nat} (hc : c < N) (n : Nat) :
    (esym m c n).length = bs * (natDigits n).length := by
  rw [esym, flatten_length_const]
  · rw [List.length_map]
  · intro s hs
    obtain ⟨dg, hdg, rfl⟩ := List.mem_map.mp hs
    exact msym_len hv (natDigits_lt n dg hdg) hc

theorem esym_cons {m : Mat} {N bs : Nat} (hv : ValidTable m N bs)
    {c : Nat} (hc : c < N) (n : Nat) :
    ∃ ch t, esym m c n = ch :: t := by
  have hlen : (esym m c n).length = bs * (natDigits n).length :=
    esym_len hv hc n
  rcases hsym : esym m c n with _ | ⟨ch, t⟩
  · exfalso
    rw [hsym] at hlen
    have h1 := hv.bsPos
    have h2 := natDigits_ne_nil n
    rcases hd : natDigits n with _ | ⟨d0, dt⟩
    · exact h2 hd
    · rw [hd] at hlen
      simp at hlen
      omega
  · exact ⟨ch, t, rfl⟩

theorem esym_head_not_digit {m : Mat} {N bs : Nat} (hv : ValidTable m N bs)
    (hnd : NoDigitStart m) {c : Nat} (hc : c < N) (n : Nat) :
    ∀ ch ∈ (esym m c n).head?, isDigitCh ch = false := by
  intro ch hch
  rcases hd : natDigits n with _ | ⟨d0, dt⟩
  · exact absurd hd (natDigits_ne_nil n)
  · have hd0 : d0 < 10 := natDigits_lt n d0 (by rw [hd]; simp)
    have hsym : esym m c n = msym m d0 c ++ ((dt.map (fun dg => msym m dg c)).flatten) := by
      rw [esym, hd, List.map_cons, List.flatten_cons]
    rcases hms : msym m d0 c with _ | ⟨ch0, t0⟩
    · exfalso
      have := msym_len hv hd0 hc
      rw [hms] at this
      have := hv.bsPos
      simp at *
      omega
    · rw [hsym, hms] at hch
      simp only [List.cons_append, List.head?_cons, Option.mem_def,
        Option.some_inj] at hch
      subst hch
      exact hnd _ (row_getD_mem hv hd0) _ (msym_mem_row hv hd0 hc) ch0
        (by rw [hms]; rfl)

theorem chunkOf_eq {m : Mat} {N bs : Nat} (hv : ValidTable m N bs)
    {c₀ : Nat} (hc₀ : c₀ < N) (x : Nat × Nat × Nat) (hvN : x.2.1 < N) :
    chunkOf m c₀ x = some (chunkStr m c₀ x) := by
  obtain ⟨d, v, p⟩ := x
  rw [chunkOf]
  simp only at hvN
  rw [encodeDigit_esym hv hvN, encodeDigit_esym hv hc₀, encodeDigit_esym hv hc₀]
  rfl

theorem genBody_eq {m : Mat} {N bs : Nat} (hv : ValidTable m N bs)
    {c₀ : Nat} (hc₀ : c₀ < N) (pairs : List (Nat × Nat)) (q : Nat → List Nat)
    (tr : List (Nat × Nat × Nat)) (hgt : genTrace pairs q = some tr)
    (hvN : ∀ x ∈ tr, x.2.1 < N) :
    genBody m c₀ pairs q = some ((tr.map (chunkStr m c₀)).flatten) := by
  rw [genBody, hgt, Option.some_bind,
    seqOpt_eq_map _ (chunkStr m c₀) _ (fun x hx => chunkOf_eq hv hc₀ x (hvN x hx))]
  rfl

theorem decodeDigitG_esym {m : Mat} {N bs : Nat} (hv : ValidTable m N bs)
    {c : Nat} (hc : c < N) (dec1 : Str → Option Nat)
    (hdec : ∀ dg, dg < 10 → dec1 (msym m dg c) = some dg) (n : Nat) :
    decodeDigitG dec1 bs (esym m c n) = some (natChars n) := by
  have h := decodeDigitG_flatten dec1 bs hv.bsPos (fun dg => msym m dg c)
    (natDigits n) (natDigits_ne_nil n)
    (fun d hd => msym_len hv (natDigits_lt n d hd) hc)
    (fun d hd => hdec d (natDigits_lt n d hd))
  rw [flatten_natChars_digits] at h
  rw [esym]
  exact h

end EncoderShape

section StringWalk

theorem mapSet_of_fresh {β : Type} (l : List (Str × β)) (k : Str) (v : β)
    (h : ∀ p ∈ l, ¬(p.1 = k)) : mapSet l k v = l ++ [(k, v)] := by
  induction l with
  | nil => rfl
  | cons a t ih =>
    rw [mapSet, if_neg (h a (by simp)), ih (fun p hp => h p (by simp [hp]))]
    rfl

theorem map_getD_range {α : Type} (l : List α) (d₀ : α) :
    (List.range l.length).map (fun i => l.getD i d₀) = l := by
  induction l with
  | nil => rfl
  | cons a t ih =>
    rw [List.length_cons, List.range_succ_eq_map, List.map_cons, List.map_map]
    congr 1

theorem takeWhile_append_stop {p : Char → Bool} {l₁ l₂ : Str}
    (h1 : ∀ c ∈ l₁, p c = true)
    (h2 : ∀ ch ∈ l₂.head?, p ch = false) :
    (l₁ ++ l₂).takeWhile p = l₁ := by
  induction l₁ with
  | nil =>
    rw [List.nil_append]
    rcases l₂ with _ | ⟨ch, t⟩
    · rfl
    · rw [List.takeWhile_cons, h2 ch rfl]
      rfl
  | cons a t ih =>
    rw [List.cons_append, List.takeWhile_cons, h1 a (by simp)]
    rw [ih (fun c hc => h1 c (by simp [hc]))]
    rfl

theorem startingNumber_prefix (n : Nat) (s : Str)
    (hs : ∀ ch ∈ s.head?, isDigitCh ch = false) :
    startingNumber (natChars n ++ s) = some n := by
  rw [startingNumber, takeWhile_append_stop ?h1 hs, parseIntDigits_natChars]
  case h1 =>
    intro c hc
    rw [natChars] at hc
    obtain ⟨d, hd, rfl⟩ := List.mem_map.mp hc
    exact isDigitCh_digitChar d (natDigits_lt n d hd)

theorem jsSub_eq (key : Str) (a b : Nat) (hab : a ≤ b) :
    jsSub key (some a) (some b) = (key.drop a).take (b - a) := by
  rw [jsSub]
  simp only [Option.getD_some]
  by_cases ha : a ≤ key.length
  · by_cases hb : b ≤ key.length
    · rw [min_eq_left ha, min_eq_left hb, min_eq_left hab, max_eq_right hab]
    · rw [min_eq_left ha, min_eq_right (by omega),
        min_eq_left (by omega : a ≤ key.length),
        max_eq_right (by omega : a ≤ key.length)]
      rw [List.take_of_length_le (by rw [List.length_drop]),
        List.take_of_length_le (by rw [List.length_drop]; omega)]
  · rw [min_eq_right (by omega), min_eq_right (by omega)]
    simp only [min_self, max_self, Nat.sub_self, List.take_zero]
    rw [List.drop_eq_nil_of_le (by omega)]
    exact List.take_nil.symm

theorem jsSub_drop (key : Str) (a : Nat) :
    jsSub key (some a) (some key.length) = key.drop a := by
  by_cases ha : a ≤ key.length
  · rw [jsSub_eq key a key.length ha]
    exact List.take_of_length_le (by rw [List.length_drop])
  · rw [jsSub]
    simp only [Option.getD_some]
    rw [min_eq_right (by omega), min_self, min_self, max_self, Nat.sub_self,
      List.take_zero, List.drop_eq_nil_of_le (by omega)]

theorem extract_field (key front field back : Str) (i : Nat)
    (h : key.drop i = front ++ (field ++ back)) :
    jsSub key (some (i + front.length))
      (some (i + front.length + field.length)) = field := by
  rw [jsSub_eq _ _ _ (by omega)]
  have h2 : key.drop (i + front.length) = field ++ back := by
    calc key.drop (i + front.length) = (key.drop i).drop front.length := by
          rw [List.drop_drop, Nat.add_comm]
      _ = field ++ back := by rw [h, List.drop_left]
  rw [h2, Nat.add_sub_cancel_left, List.take_left]

theorem findIdx_sep (sep : Char) : ∀ (pre post : Str), sep ∉ pre →
    (pre ++ sep :: post).findIdx (fun ch => ch == sep) = pre.length := by
  intro pre
  induction pre with
  | nil =>
    intro post _
    simp [List.findIdx_cons]
  | cons a t ih =>
    intro post hmem
    rw [List.cons_append, List.findIdx_cons]
    have ha : (a == sep) = false := by
      simp only [beq_eq_false_iff_ne, ne_eq]
      intro hc
      exact hmem (by simp [hc])
    rw [ha]
    simp only [cond_false]
    rw [ih post (fun hc => hmem (by simp [hc]))]
    rfl

end StringWalk

section TraceLemmas

theorem genTrace_empty {d v : Nat} {rest : List (Nat × Nat)}
    {q : Nat → List Nat} (hq : q d = []) :
    genTrace ((d, v) :: rest) q = none := by
  show (match q d with
    | [] => none
    | p :: ps =>
      (genTrace rest (fun x => if x = d then ps else q x)).map
        (fun tr => (d, v, p) :: tr)) = none
  rw [hq]

theorem genTrace_pop {d v : Nat} {rest : List (Nat × Nat)}
    {q : Nat → List Nat} {p : Nat} {ps : List Nat} (hq : q d = p :: ps) :
    genTrace ((d, v) :: rest) q =
      (genTrace rest (fun x => if x = d then ps else q x)).map
        (fun tr => (d, v, p) :: tr) := by
  show (match q d with
    | [] => none
    | p :: ps =>
      (genTrace rest (fun x => if x = d then ps else q x)).map
        (fun tr => (d, v, p) :: tr)) = _
  rw [hq]

/-- Shape of a successful trace: projecting away positions recovers the
input pairs, every popped position comes from the queue of its digit, and
the popped positions are pairwise distinct. -/
theorem genTrace_shape :
    ∀ (pairs : List (Nat × Nat)) (q : Nat → List Nat)
      (tr : List (Nat × Nat × Nat)),
      genTrace pairs q = some tr →
      (∀ d d' p, p ∈ q d → p ∈ q d' → d = d') →
      (∀ d, (q d).Nodup) →
      tr.map (fun x => (x.1, x.2.1)) = pairs ∧
      (∀ x ∈ tr, x.2.2 ∈ q x.1) ∧
      (tr.map (fun x => x.2.2)).Nodup := by
  intro pairs
  induction pairs with
  | nil =>
    intro q tr hgt _ _
    rw [genTrace] at hgt
    simp only [Option.some_inj] at hgt
    subst hgt
    simp
  | cons x rest ih =>
    intro q tr hgt hdisj hnd
    obtain ⟨d, v⟩ := x
    rcases hq : q d with _ | ⟨p, ps⟩
    · rw [genTrace_empty hq] at hgt
      simp at hgt
    · rw [genTrace_pop hq] at hgt
      rcases hgt2 : genTrace rest (fun x => if x = d then ps else q x)
        with _ | tr2
      · rw [hgt2] at hgt
        simp at hgt
      · rw [hgt2] at hgt
        have htr : tr = (d, v, p) :: tr2 := by
          simpa using hgt.symm
        have hq2sub : ∀ y pp, pp ∈ (if y = d then ps else q y) → pp ∈ q y := by
          intro y pp hpp
          by_cases hy : y = d
          · subst hy
            rw [if_pos rfl] at hpp
            rw [hq]
            exact List.mem_cons_of_mem _ hpp
          · rw [if_neg hy] at hpp
            exact hpp
        have hdisj2 : ∀ a b pp, pp ∈ (if a = d then ps else q a) →
            pp ∈ (if b = d then ps else q b) → a = b :=
          fun a b pp h1 h2 => hdisj a b pp (hq2sub a pp h1) (hq2sub b pp h2)
        have hnd2 : ∀ y, (if y = d then ps else q y).Nodup := by
          intro y
          by_cases hy : y = d
          · subst hy
            rw [if_pos rfl]
            have hh := hnd y
            rw [hq] at hh
            exact (List.nodup_cons.mp hh).2
          · rw [if_neg hy]
            exact hnd y
        obtain ⟨hshape, hmemq, hndpos⟩ := ih _ tr2 hgt2 hdisj2 hnd2
        subst htr
        refine ⟨?_, ?_, ?_⟩
        · rw [List.map_cons, hshape]
        · intro y hy
          rcases List.mem_cons.mp hy with h | h
          · subst h
            show p ∈ q d
            rw [hq]
            exact List.mem_cons_self _ _
          · exact hq2sub _ _ (hmemq y h)
        · rw [List.map_cons]
          refine List.nodup_cons.mpr ⟨?_, hndpos⟩
          intro hc
          obtain ⟨y, hy, hyp⟩ := List.mem_map.mp hc
          have hmem2 := hmemq y hy
          by_cases hyd : y.1 = d
          · rw [hyd, if_pos rfl] at hmem2
            have hndd := hnd d
            rw [hq] at hndd
            rw [hyp] at hmem2
            exact (List.nodup_cons.mp hndd).1 hmem2
          · have hin : y.2.2 ∈ q y.1 := hq2sub _ _ hmem2
            have hpd : y.2.2 ∈ q d := by
              rw [hyp, hq]
              exact List.mem_cons_self _ _
            exact hyd (hdisj _ _ _ hin hpd)

/-- The positions popped for each digit are exactly the first count-many
entries of its queue, in queue order. -/
theorem genTrace_popped :
    ∀ (pairs : List (Nat × Nat)) (q : Nat → List Nat)
      (tr : List (Nat × Nat × Nat)) (d : Nat),
      genTrace pairs q = some tr →
      tr.filterMap (fun x => if x.1 = d then some x.2.2 else none) =
        (q d).take ((pairs.map Prod.fst).count d) := by
  intro pairs
  induction pairs with
  | nil =>
    intro q tr d hgt
    rw [genTrace] at hgt
    simp only [Option.some_inj] at hgt
    subst hgt
    simp
  | cons x rest ih =>
    intro q tr d hgt
    obtain ⟨d0, v⟩ := x
    rcases hq : q d0 with _ | ⟨p, ps⟩
    · rw [genTrace_empty hq] at hgt
      simp at hgt
    · rw [genTrace_pop hq] at hgt
      rcases hgt2 : genTrace rest (fun x => if x = d0 then ps else q x)
        with _ | tr2
      · rw [hgt2] at hgt
        simp at hgt
      · rw [hgt2] at hgt
        have htr : tr = (d0, v, p) :: tr2 := by
          simpa using hgt.symm
        subst htr
        have hcount : ((((d0, v) :: rest)).map Prod.fst).count d =
            (rest.map Prod.fst).count d + (if d0 = d then 1 else 0) := by
          rw [List.map_cons, List.count_cons]
          by_cases hdd : d0 = d <;> simp [hdd]
        rw [hcount]
        have hihd := ih _ tr2 d hgt2
        by_cases hdd : d0 = d
        · subst hdd
          rw [List.filterMap_cons, hihd, hq]
          simp [List.take_succ_cons]
        · have hne2 : ¬ (((d0, v, p) : Nat × Nat × Nat).1 = d) := by
            simpa using hdd
          simp only [List.filterMap_cons, if_neg hne2]
          rw [hihd]
          rw [if_neg (fun hc => hdd hc.symm)]
          simp

/-- The pops all succeed when each digit occurs in the pair list at most as
often as its queue is long. -/
theorem genTrace_isSome :
    ∀ (pairs : List (Nat × Nat)) (q : Nat → List Nat),
      (∀ d, (pairs.map Prod.fst).count d ≤ (q d).length) →
      (genTrace pairs q).isSome := by
  intro pairs
  induction pairs with
  | nil =>
    intro q _
    rw [genTrace]
    rfl
  | cons x rest ih =>
    intro q hcnt
    obtain ⟨d, v⟩ := x
    have hd := hcnt d
    rw [List.map_cons, List.count_cons] at hd
    simp only [beq_self_eq_true, if_pos rfl, if_true] at hd
    rcases hq : q d with _ | ⟨p, ps⟩
    · exfalso
      rw [hq] at hd
      simp at hd
    · rw [genTrace_pop hq]
      have hrest : ∀ d2, ((rest.map Prod.fst).count d2) ≤
          ((if d2 = d then ps else q d2)).length := by
        intro d2
        by_cases hdd : d2 = d
        · subst hdd
          rw [if_pos rfl]
          rw [hq] at hd
          simp only [List.length_cons] at hd
          omega
        · rw [if_neg hdd]
          have h2 := hcnt d2
          rw [List.map_cons, List.count_cons] at h2
          have hne : ((d, v).1 == d2) = false := by
            simp only [beq_eq_false_iff_ne, ne_eq]
            intro hc
            exact hdd hc.symm
          rw [hne] at h2
          simpa using h2
      have hsome := ih _ hrest
      rcases hgt2 : genTrace rest (fun x => if x = d then ps else q x)
        with _ | tr2
      · rw [hgt2] at hsome
        simp at hsome
      · rfl

theorem positionsOf_mem {time : List Nat} {d p : Nat}
    (hp : p ∈ positionsOf time d) :
    p < time.length ∧ time.getD p 10 = d := by
  rw [positionsOf, List.mem_filter, List.mem_range] at hp
  exact ⟨hp.1, by simpa using hp.2⟩

theorem positionsOf_nodup (time : List Nat) (d : Nat) :
    (positionsOf time d).Nodup :=
  (List.nodup_range _).filter _

theorem positionsOf_disjoint (time : List Nat) :
    ∀ d d' p, p ∈ positionsOf time d → p ∈ positionsOf time d' → d = d' := by
  intro d d' p h1 h2
  have e1 := (positionsOf_mem h1).2
  have e2 := (positionsOf_mem h2).2
  rw [← e1, ← e2]

theorem mem_positionsOf (time : List Nat) (p : Nat) (hp : p < time.length) :
    p ∈ positionsOf time (time.getD p 10) := by
  rw [positionsOf, List.mem_filter, List.mem_range]
  exact ⟨hp, by simp⟩

theorem positionsOf_length (time : List Nat) (d : Nat) :
    (positionsOf time d).length = time.count d := by
  rw [positionsOf, ← List.countP_eq_length_filter]
  conv_rhs => rw [← map_getD_range time 10]
  rw [List.count_eq_countP, List.countP_map]
  apply List.countP_congr
  intro i hi
  simp [Function.comp]

end TraceLemmas

section SortLemma

/-- Object.values over an object whose keys are the canonical decimal
strings of a permutation of 0..L-1, with values a function of the key:
the canonical-index ordering reads the values back in ascending key
order. -/
theorem objValues_of_perm_range (g : Nat → Str) (L : Nat)
    (hL : L ≤ 4294967295) (l : List Nat)
    (hperm : l.Perm (List.range L)) :
    objValues (l.map (fun p => (natChars p, g p))) = (List.range L).map g := by
  have hmemL : ∀ p ∈ l, p < L := by
    intro p hp
    have h2 := hperm.mem_iff.mp hp
    rw [List.mem_range] at h2
    exact h2
  have hcanon : ∀ w ∈ l.map (fun p => (natChars p, g p)),
      isCanonIndex w.1 = true := by
    intro w hw
    obtain ⟨p, hp, rfl⟩ := List.mem_map.mp hw
    exact isCanonIndex_natChars p (by have := hmemL p hp; omega)
  rw [objValues]
  rw [List.filter_eq_self.mpr hcanon]
  rw [show (l.map (fun p => (natChars p, g p))).filter
      (fun w => !(isCanonIndex w.1)) = [] from by
    rw [List.filter_eq_nil_iff]
    intro w hw
    simp [hcanon w hw]]
  simp only [List.map_nil, List.append_nil]
  set ol := l.map (fun p => (natChars p, g p)) with hol
  set r := fun (a b : Str × Str) =>
    digitsToNat (a.1.map chDigit) ≤ digitsToNat (b.1.map chDigit) with hr
  set so := ol.insertionSort r with hso
  have hperm_so : so.Perm ol := List.perm_insertionSort r ol
  have hform : ∀ w ∈ so, ∃ p, p ∈ l ∧ w = (natChars p, g p) := by
    intro w hw
    have hmem : w ∈ ol := hperm_so.mem_iff.mp hw
    obtain ⟨p, hp, rfl⟩ := List.mem_map.mp hmem
    exact ⟨p, hp, rfl⟩
  have hso_eq : so = (so.map (fun w => digitsToNat (w.1.map chDigit))).map
      (fun p => (natChars p, g p)) := by
    rw [List.map_map]
    conv_lhs => rw [← List.map_id so]
    apply List.map_congr_left
    intro w hw
    obtain ⟨p, hp, rfl⟩ := hform w hw
    simp [natChars_map_chDigit, digitsToNat_natDigits, Function.comp]
  set ks := so.map (fun w => digitsToNat (w.1.map chDigit)) with hks
  have hks_perm : ks.Perm (List.range L) := by
    have h1 : ks.Perm (ol.map (fun w => digitsToNat (w.1.map chDigit))) :=
      hperm_so.map _
    have h2 : ol.map (fun w => digitsToNat (w.1.map chDigit)) = l := by
      rw [hol, List.map_map]
      conv_rhs => rw [← List.map_id l]
      apply List.map_congr_left
      intro p hp
      simp [natChars_map_chDigit, digitsToNat_natDigits, Function.comp]
    rw [h2] at h1
    exact h1.trans hperm
  haveI hto : IsTotal (Str × Str) r := ⟨fun a b => Nat.le_total _ _⟩
  haveI htr : IsTrans (Str × Str) r := ⟨fun a b c hab hbc => Nat.le_trans hab hbc⟩
  have hks_sorted : List.Sorted (fun a b => a ≤ b) ks := by
    have hsorted : List.Sorted r so := List.sorted_insertionSort r ol
    rw [hks, List.Sorted] at *
    rw [List.pairwise_map]
    exact hsorted
  have hrange_sorted : List.Sorted (fun a b => a ≤ b) (List.range L) :=
    List.Pairwise.imp (fun h => Nat.le_of_lt h) (List.pairwise_lt_range L)
  have hks_eq : ks = List.range L :=
    List.eq_of_perm_of_sorted hks_perm hks_sorted hrange_sorted
  calc so.map (fun w => w.2)
      = ((ks.map (fun p => (natChars p, g p))).map (fun w => w.2)) := by
        conv_lhs => rw [hso_eq]
    _ = ks.map g := by
        rw [List.map_map]
        rfl
    _ = (List.range L).map g := by rw [hks_eq]

end SortLemma

section DecodeWalk

theorem drop_shift (key pre post : Str) (i : Nat)
    (h : key.drop i = pre ++ post) :
    key.drop (i + pre.length) = post := by
  calc key.drop (i + pre.length) = (key.drop i).drop pre.length := by
        rw [List.drop_drop, Nat.add_comm]
    _ = post := by rw [h, List.drop_left]

theorem jsLen_some (n : Nat) : jsLen (some n) = (natChars n).length := rfl

/-- One iteration of the decode loop at the start of a well-formed chunk:
the fixed-width digit field, the two length prefixes and the two
length-delimited fields are carved out exactly, and the cursor advances to
the end of the chunk. -/
theorem decodeChunks_step (decN : Option Nat → Str → Option Nat)
    (decS : Str → Str → Option Nat) (bs : Nat) (key : Str)
    (c₀idx : Option Nat) (fuel i : Nat) (acc : List (Str × Str))
    (ed ee ep rest : Str)
    (hdrop : key.drop i =
      ed ++ (natChars ee.length ++ (ee ++ (natChars ep.length ++ (ep ++ rest)))))
    (hedlen : ed.length = bs) (hbs : 1 ≤ bs)
    (hee : ∀ ch ∈ ee.head?, isDigitCh ch = false) (heene : ee ≠ [])
    (hep : ∀ ch ∈ ep.head?, isDigitCh ch = false) (hepne : ep ≠ []) :
    decodeChunks decN decS bs key c₀idx (fuel + 1) i acc =
      ((decodeDigitG (decN c₀idx) bs ee).bind fun encIdxStr =>
       (decodeDigitG (decS encIdxStr) bs ed).bind fun digitStr =>
       (decodeDigitG (decN c₀idx) bs ep).bind fun posStr =>
       decodeChunks decN decS bs key c₀idx fuel
         (i + bs + (natChars ee.length).length + (natChars ep.length).length
           + ee.length + ep.length)
         (mapSet acc posStr digitStr)) := by
  obtain ⟨che, te, heec⟩ := List.exists_cons_of_ne_nil heene
  obtain ⟨chp, tp, hepc⟩ := List.exists_cons_of_ne_nil hepne
  have hi : i < key.length := by
    by_contra hcon
    have h0 : key.drop i = [] := List.drop_eq_nil_of_le (by omega)
    rw [h0] at hdrop
    have := congrArg List.length hdrop
    simp [List.length_append, hedlen] at this
    omega
  have e1 : jsSub key (some i) (some (i + bs)) = ed := by
    have h := extract_field key [] ed
      (natChars ee.length ++ (ee ++ (natChars ep.length ++ (ep ++ rest)))) i
      (by simpa using hdrop)
    simpa [hedlen] using h
  have hdrop1 : key.drop (i + bs) =
      natChars ee.length ++ (ee ++ (natChars ep.length ++ (ep ++ rest))) := by
    have h := drop_shift key ed _ i hdrop
    rw [hedlen] at h
    exact h
  have e2 : startingNumber (key.drop (i + bs)) = some ee.length := by
    rw [hdrop1]
    apply startingNumber_prefix
    intro ch hch
    rw [heec] at hch
    simp only [List.cons_append, List.head?_cons, Option.mem_def,
      Option.some_inj] at hch
    subst hch
    exact hee _ (by rw [heec]; rfl)
  have hform2 : key.drop i =
      (ed ++ natChars ee.length) ++ (ee ++ (natChars ep.length ++ (ep ++ rest))) := by
    rw [hdrop]
    simp [List.append_assoc]
  have e4 : jsSub key (some (i + bs + (natChars ee.length).length))
      (some (i + bs + (natChars ee.length).length + ee.length)) = ee := by
    have h := extract_field key (ed ++ natChars ee.length) ee
      (natChars ep.length ++ (ep ++ rest)) i hform2
    have a1 : i + (ed ++ natChars ee.length).length =
        i + bs + (natChars ee.length).length := by
      simp [List.length_append, hedlen]
      omega
    rw [a1] at h
    exact h
  have hdrop2 : key.drop (i + bs + (natChars ee.length).length + ee.length) =
      natChars ep.length ++ (ep ++ rest) := by
    have hform3 : key.drop i =
        ((ed ++ natChars ee.length) ++ ee) ++ (natChars ep.length ++ (ep ++ rest)) := by
      rw [hdrop]
      simp [List.append_assoc]
    have h := drop_shift key _ _ i hform3
    have a1 : i + ((ed ++ natChars ee.length) ++ ee).length =
        i + bs + (natChars ee.length).length + ee.length := by
      simp [List.length_append, hedlen]
      omega
    rw [a1] at h
    exact h
  have e6 : startingNumber
      (jsSub key (some (i + bs + (natChars ee.length).length + ee.length))
        (some key.length)) = some ep.length := by
    rw [jsSub_drop, hdrop2]
    apply startingNumber_prefix
    intro ch hch
    rw [hepc] at hch
    simp only [List.cons_append, List.head?_cons, Option.mem_def,
      Option.some_inj] at hch
    subst hch
    exact hep _ (by rw [hepc]; rfl)
  have e8 : jsSub key
      (some (i + bs + (natChars ee.length).length + ee.length
        + (natChars ep.length).length))
      (some (i + bs + (natChars ee.length).length + ee.length
        + (natChars ep.length).length + ep.length)) = ep := by
    have hform4 : key.drop i =
        (((ed ++ natChars ee.length) ++ ee) ++ natChars ep.length) ++ (ep ++ rest) := by
      rw [hdrop]
      simp [List.append_assoc]
    have h := extract_field key _ ep (rest) i hform4
    have a1 : i + (((ed ++ natChars ee.length) ++ ee) ++ natChars ep.length).length =
        i + bs + (natChars ee.length).length + ee.length
          + (natChars ep.length).length := by
      simp [List.length_append, hedlen]
      omega
    rw [a1] at h
    exact h
  rw [decodeChunks, if_pos hi]
  simp only [e2, jsLen_some, e1, e4, e6, e8, oadd, Option.map_some, Option.map_some']

/-- Walking the decode loop over the flattened chunk strings of a trace:
one (position, digit) entry is appended to the accumulator per chunk, in
trace order, and the walk succeeds. -/
theorem decodeChunks_walk {m : Mat} {N bs : Nat} (hv : ValidTable m N bs)
    (hnd : NoDigitStart m) {c₀ : Nat} (hc₀ : c₀ < N)
    (dec : DecPrim) (hok : DecOK dec m N) (key : Str) :
    ∀ (tr : List (Nat × Nat × Nat)) (fuel i : Nat) (acc : List (Str × Str)),
      key.drop i = (tr.map (chunkStr m c₀)).flatten →
      (∀ x ∈ tr, x.1 < 10) →
      (∀ x ∈ tr, x.2.1 < N) →
      (tr.map (fun x => x.2.2)).Nodup →
      (∀ x ∈ tr, ∀ w ∈ acc, w.1 ≠ natChars x.2.2) →
      tr.length < fuel →
      decodeChunks (dec.num m) (dec.stringCol m) bs key (some c₀) fuel i acc =
        some (acc ++ tr.map (fun x => (natChars x.2.2, natChars x.1))) := by
  intro tr
  induction tr with
  | nil =>
    intro fuel i acc hdrop _ _ _ _ hfuel
    rcases fuel with _ | fuel
    · omega
    · have hle : key.length ≤ i := by
        have h := congrArg List.length hdrop
        simp only [List.length_drop, List.map_nil, List.flatten_nil,
          List.length_nil] at h
        omega
      rw [decodeChunks, if_neg (by omega)]
      simp
  | cons x tr2 ih =>
    intro fuel i acc hdrop hd10 hvN hpos hfresh hfuel
    obtain ⟨d, v, p⟩ := x
    have hd : d < 10 := hd10 (d, v, p) (by simp)
    have hvlt : v < N := hvN (d, v, p) (by simp)
    rcases fuel with _ | fuel
    · omega
    have hdigd : natDigits d = [d] := by
      rw [natDigits_unfold, if_pos hd]
    have hedlen : (esym m v d).length = bs := by
      rw [esym_len hv hvlt, hdigd]
      simp
    have hchx : chunkStr m c₀ (d, v, p) =
        esym m v d ++ (natChars (esym m c₀ v).length ++ (esym m c₀ v
          ++ (natChars (esym m c₀ p).length ++ esym m c₀ p))) := by
      rw [chunkStr]
      simp [List.append_assoc]
    have hdropx : key.drop i =
        esym m v d ++ (natChars (esym m c₀ v).length ++ (esym m c₀ v
          ++ (natChars (esym m c₀ p).length ++ (esym m c₀ p
            ++ (tr2.map (chunkStr m c₀)).flatten)))) := by
      rw [hdrop, List.map_cons, List.flatten_cons, hchx]
      simp [List.append_assoc]
    obtain ⟨che, te, heec⟩ := esym_cons hv hc₀ v
    obtain ⟨chp, tp, hepc⟩ := esym_cons hv hc₀ p
    rw [decodeChunks_step (dec.num m) (dec.stringCol m) bs key (some c₀) fuel i
      acc (esym m v d) (esym m c₀ v) (esym m c₀ p)
      ((tr2.map (chunkStr m c₀)).flatten) hdropx hedlen hv.bsPos
      (esym_head_not_digit hv hnd hc₀ v) (by rw [heec]; exact List.cons_ne_nil _ _)
      (esym_head_not_digit hv hnd hc₀ p) (by rw [hepc]; exact List.cons_ne_nil _ _)]
    rw [decodeDigitG_esym hv hc₀ (dec.num m (some c₀))
      (fun dg hdg => hok.numOK dg c₀ hdg hc₀) v, Option.some_bind]
    rw [decodeDigitG_esym hv hvlt (dec.stringCol m (natChars v))
      (fun dg hdg => hok.strOK dg v hdg hvlt) d, Option.some_bind]
    rw [decodeDigitG_esym hv hc₀ (dec.num m (some c₀))
      (fun dg hdg => hok.numOK dg c₀ hdg hc₀) p, Option.some_bind]
    rw [mapSet_of_fresh acc (natChars p) (natChars d)
      (fun w hw => hfresh (d, v, p) (by simp) w hw)]
    have hdropnext : key.drop (i + bs + (natChars (esym m c₀ v).length).length
        + (natChars (esym m c₀ p).length).length + (esym m c₀ v).length
        + (esym m c₀ p).length) = (tr2.map (chunkStr m c₀)).flatten := by
      have h := drop_shift key (chunkStr m c₀ (d, v, p))
        ((tr2.map (chunkStr m c₀)).flatten) i
        (by rw [hdrop, List.map_cons, List.flatten_cons])
      have a1 : i + (chunkStr m c₀ (d, v, p)).length =
          i + bs + (natChars (esym m c₀ v).length).length
            + (natChars (esym m c₀ p).length).length + (esym m c₀ v).length
            + (esym m c₀ p).length := by
        rw [chunkStr]
        simp only [List.length_append, hedlen]
        omega
      rw [a1] at h
      exact h
    rw [ih fuel _ _ hdropnext (fun y hy => hd10 y (by simp [hy]))
      (fun y hy => hvN y (by simp [hy]))
      (by simpa using hpos.of_cons)
      ?fresh (by simpa using Nat.lt_of_succ_lt_succ hfuel)]
    case fresh =>
      intro y hy w hw
      rcases List.mem_append.mp hw with hw1 | hw2
      · exact hfresh y (by simp [hy]) w hw1
      · have hwp : w = (natChars p, natChars d) := by simpa using hw2
        rw [hwp]
        intro hcon
        have hpy : p = y.2.2 := natChars_injective hcon
        have hpmem : p ∈ tr2.map (fun z => z.2.2) :=
          List.mem_map.mpr ⟨y, hy, hpy.symm⟩
        have hnodup := hpos
        rw [List.map_cons] at hnodup
        exact (List.nodup_cons.mp hnodup).1 hpmem
    simp

end DecodeWalk

section RoundTrip

theorem length_le_flatten {l : List Str} (h : ∀ s ∈ l, s ≠ []) :
    l.length ≤ l.flatten.length := by
  induction l with
  | nil => simp
  | cons a t ih =>
    rw [List.flatten_cons, List.length_append, List.length_cons]
    have ha : 0 < a.length := List.length_pos.mpr (h a (by simp))
    have ht := ih (fun s hs => h s (by simp [hs]))
    omega

theorem sep_not_mem_esym {m : Mat} {N bs : Nat} (hv : ValidTable m N bs)
    {sep : Char} (hsf : SepFree m sep) {c : Nat} (hc : c < N) (n : Nat) :
    sep ∉ esym m c n := by
  rw [esym]
  intro hmem
  rw [List.mem_flatten] at hmem
  obtain ⟨s, hs, hsep⟩ := hmem
  obtain ⟨dg, hdg, rfl⟩ := List.mem_map.mp hs
  have hdg10 : dg < 10 := natDigits_lt n dg hdg
  exact hsf _ (row_getD_mem hv hdg10) _ (msym_mem_row hv hdg10 hc) hsep

/-- The full round trip, generic in the decode primitives: a key generated
from the decimal digits of T (any emission order sh that permutes the
digits, any per-digit value columns, any metadata column) is produced, and
decodes back to exactly T under any decode bundle that is correct for the
table. -/
theorem decodeKeyG_roundtrip {m : Mat} {N bs : Nat} (hv : ValidTable m N bs)
    (hnd : NoDigitStart m) {sep : Char} (hsf : SepFree m sep)
    (dec : DecPrim) (hok : DecOK dec m N) (T c₀ : Nat) (hc₀ : c₀ < N)
    (hT : (natDigits T).length ≤ 4294967295)
    (sh vcols : List Nat) (hperm : sh.Perm (natDigits T))
    (hvl : (natDigits T).length ≤ vcols.length)
    (hvcols : ∀ v ∈ vcols, v < N) :
    ∃ tok, generateKey? m sep (natDigits T) sh c₀ vcols = some tok ∧
      decodeKeyG dec m sep tok = Except.ok (some T) := by
  have hshlen : sh.length = (natDigits T).length := hperm.length_eq
  have hfst : ((sh.zip vcols).map Prod.fst) = sh :=
    List.map_fst_zip sh vcols (by omega)
  have hcount : ∀ d, (((sh.zip vcols).map Prod.fst).count d)
      ≤ (positionsOf (natDigits T) d).length := by
    intro d
    rw [hfst, positionsOf_length, hperm.count_eq d]
  obtain ⟨tr, htr⟩ := Option.isSome_iff_exists.mp
    (genTrace_isSome (sh.zip vcols) (positionsOf (natDigits T)) hcount)
  obtain ⟨hsh1, hsh2, hsh3⟩ := genTrace_shape (sh.zip vcols)
    (positionsOf (natDigits T)) tr htr
    (positionsOf_disjoint (natDigits T)) (positionsOf_nodup (natDigits T))
  have hmemzip : ∀ x ∈ tr, (x.1, x.2.1) ∈ sh.zip vcols := by
    intro x hx
    rw [← hsh1]
    exact List.mem_map_of_mem _ hx
  have htr10 : ∀ x ∈ tr, x.1 < 10 := by
    intro x hx
    exact natDigits_lt T x.1
      (hperm.mem_iff.mp (List.of_mem_zip (hmemzip x hx)).1)
  have htrN : ∀ x ∈ tr, x.2.1 < N := by
    intro x hx
    exact hvcols _ (List.of_mem_zip (hmemzip x hx)).2
  have htrd : ∀ x ∈ tr, (natDigits T).getD x.2.2 10 = x.1 :=
    fun x hx => (positionsOf_mem (hsh2 x hx)).2
  have htrp : ∀ x ∈ tr, x.2.2 < (natDigits T).length :=
    fun x hx => (positionsOf_mem (hsh2 x hx)).1
  have hbody := genBody_eq hv hc₀ (sh.zip vcols) (positionsOf (natDigits T))
    tr htr htrN
  have hsauce : (seqOpt (fun d => msym? m d c₀) (natDigits c₀)).map List.flatten
      = some (esym m c₀ c₀) := by
    rw [seqOpt_eq_map (fun d => msym? m d c₀) (fun d => msym m d c₀)
      (natDigits c₀) (fun d hd => msym?_eq hv (natDigits_lt c₀ d hd) hc₀),
      Option.map_some']
    rw [esym]
  refine ⟨esym m c₀ c₀ ++ [sep] ++ (tr.map (chunkStr m c₀)).flatten, ?_, ?_⟩
  · rw [generateKey?, hbody, Option.some_bind, hsauce, Option.map_some']
  · have hsepn : sep ∉ esym m c₀ c₀ := sep_not_mem_esym hv hsf hc₀ c₀
    have hcontains : (esym m c₀ c₀ ++ [sep]
        ++ (tr.map (chunkStr m c₀)).flatten).contains sep = true := by
      simp [List.contains]
    have hassoc : esym m c₀ c₀ ++ [sep] ++ (tr.map (chunkStr m c₀)).flatten
        = esym m c₀ c₀ ++ sep :: (tr.map (chunkStr m c₀)).flatten := by
      simp
    have hfind : (esym m c₀ c₀ ++ [sep]
        ++ (tr.map (chunkStr m c₀)).flatten).findIdx (fun ch => ch == sep)
        = (esym m c₀ c₀).length := by
      rw [hassoc]
      exact findIdx_sep sep _ _ hsepn
    have htake : (esym m c₀ c₀ ++ [sep]
        ++ (tr.map (chunkStr m c₀)).flatten).take (esym m c₀ c₀).length
        = esym m c₀ c₀ := by
      rw [List.append_assoc]
      exact List.take_left _ _
    have hdropk : (esym m c₀ c₀ ++ [sep]
        ++ (tr.map (chunkStr m c₀)).flatten).drop ((esym m c₀ c₀).length + 1)
        = (tr.map (chunkStr m c₀)).flatten := by
      have h1 : (esym m c₀ c₀).length + 1 = (esym m c₀ c₀ ++ [sep]).length := by
        simp
      rw [h1, List.drop_left]
    have hparts : parts (esym m c₀ c₀) bs
        = (natDigits c₀).map (fun d => msym m d c₀) := by
      rw [esym]
      exact parts_join bs hv.bsPos _ (fun s hs => by
        obtain ⟨dg, hdg, rfl⟩ := List.mem_map.mp hs
        exact msym_len hv (natDigits_lt c₀ dg hdg) hc₀)
    have hds : seqOpt (fun p => dec.any m p)
        ((natDigits c₀).map (fun d => msym m d c₀)) = some (natDigits c₀) :=
      seqOpt_map_some _ _ _ (fun d hd => hok.anyOK d c₀ (natDigits_lt c₀ d hd) hc₀)
    have hcol : parseIntDigits (((natDigits c₀).map natChars).flatten)
        = some c₀ := by
      rw [flatten_natChars_digits, parseIntDigits_natChars]
    have hchne : ∀ s ∈ tr.map (chunkStr m c₀), s ≠ [] := by
      intro s hs
      obtain ⟨x, hx, rfl⟩ := List.mem_map.mp hs
      obtain ⟨ch, t, hct⟩ := esym_cons hv (htrN x hx) x.1
      rw [chunkStr, hct]
      simp
    have hfuel : tr.length < ((tr.map (chunkStr m c₀)).flatten).length + 1 := by
      have h := length_le_flatten hchne
      rw [List.length_map] at h
      omega
    have hwalk := decodeChunks_walk hv hnd hc₀ dec hok
      ((tr.map (chunkStr m c₀)).flatten) tr
      (((tr.map (chunkStr m c₀)).flatten).length + 1) 0 []
      (by simp) htr10 htrN hsh3 (by simp) hfuel
    have htl : tr.map (fun x => (natChars x.2.2, natChars x.1))
        = (tr.map (fun x => x.2.2)).map
            (fun p => (natChars p, natChars ((natDigits T).getD p 10))) := by
      rw [List.map_map]
      apply List.map_congr_left
      intro x hx
      simp only [Function.comp]
      rw [htrd x hx]
    have hsub : (tr.map fun x => x.2.2) ⊆ List.range (natDigits T).length := by
      intro p hp
      obtain ⟨x, hx, rfl⟩ := List.mem_map.mp hp
      exact List.mem_range.mpr (htrp x hx)
    have hlen2 : (tr.map fun x => x.2.2).length = (natDigits T).length := by
      have h1 := congrArg List.length hsh1
      rw [List.length_map, List.length_zip] at h1
      rw [List.length_map, h1, hshlen]
      exact min_eq_left (by omega)
    have hperm2 : (tr.map fun x => x.2.2).Perm
        (List.range (natDigits T).length) := by
      apply List.Subperm.perm_of_length_le (List.subperm_of_subset hsh3 hsub)
      rw [hlen2, List.length_range]
    have hobj := objValues_of_perm_range
      (fun p => natChars ((natDigits T).getD p 10)) (natDigits T).length hT
      _ hperm2
    have hgmap : (List.range (natDigits T).length).map
        (fun p => natChars ((natDigits T).getD p 10))
        = (natDigits T).map natChars := by
      conv_rhs => rw [← map_getD_range (natDigits T) 10]
      rw [List.map_map]
      rfl
    rw [decodeKeyG]
    simp only [hcontains, if_true, baseSize_eq hv, hfind, htake, hdropk,
      hparts, hds, hcol, hwalk, List.nil_append]
    rw [htl, hobj, hgmap, flatten_natChars_digits, parseIntDigits_natChars]

end RoundTrip

/-! ### Claim theorems -/

/-- C8: over a valid table, encodeDigit of any single decimal digit 0 to 9
(including the boundary digit 9, which takes the multi-character branch)
produces exactly the table symbol of that digit at the requested column — a
string of length exactly baseSize — and decodeDigit over the same column
recovers the original digit. -/
theorem C8_encode_digit (m : Mat) (N bs d c : Nat) (hv : ValidTable m N bs)
    (hd : d < 10) (hc : c < N) :
    encodeDigit? m d c = some (msym m d c) ∧
    (msym m d c).length = bs ∧
    decodeDigitG (optDecNum m (some c)) bs (msym m d c) =
      some (natChars d) := by
  have henc : encodeDigit? m d c = some (msym m d c) := by
    rw [encodeDigit_eq]
    have hdig : natDigits d = [d] := by
      rw [natDigits_unfold, if_pos (by omega)]
    rw [hdig, seqOpt, msym?_eq hv hd hc]
    simp [seqOpt]
  refine ⟨henc, msym_len hv hd hc, ?_⟩
  have hdd := decodeDigitG_flatten (optDecNum m (some c)) bs hv.bsPos
    (fun x => msym m x c) [d] (by simp)
    (by
      intro x hx
      simp only [List.mem_singleton] at hx
      subst hx
      exact msym_len hv hd hc)
    (by
      intro x hx
      simp only [List.mem_singleton] at hx
      subst hx
      exact optDecNum_correct hv hd hc)
  simpa using hdd

/-- C8 witness: the boundary digit 9 over the example table: the else
branch still yields the single symbol Y of width baseSize, and decodeDigit
returns the digit string 9. -/
theorem C8_encode_digit_witness :
    encodeDigit? exMat 9 0 = some (msym exMat 9 0) ∧
    (msym exMat 9 0).length = 1 ∧
    decodeDigitG (optDecNum exMat (some 0)) 1 (msym exMat 9 0) =
      some (natChars 9) :=
  C8_encode_digit exMat 6 1 9 0 exMat_valid (by decide) (by decide)

/-- C9 counterexample: in dupMat the symbol X occurs at the entries of both
digit 0 and digit 1 (visited in that build order), yet the per-column
reverse map records digit 1 — the last conflicting digit, not the first —
while the any-column map records digit 0. -/
theorem C9_counterexample_last_writer :
    msym? dupMat 0 0 = some ['X'] ∧ msym? dupMat 1 0 = some ['X'] ∧
    mapGet (buildColMap dupMat 0) ['X'] = some 1 ∧
    mapGet (buildAnyMap dupMat) ['X'] = some 0 :=
  ⟨rfl, rfl, rfl, rfl⟩

/-- C9 (amended): for any matrix, the Decode Index has mixed collision
semantics: a per-column reverse map records the digit of the last entry
written under a colliding symbol in build order (plain assignment
overwrites), while the any-column reverse map records the digit of the
first such entry (guarded insertion). -/
theorem C9_decode_index_write_semantics (m : Mat) (c : Nat) (k : Str) :
    mapGet (buildColMap m c) k =
      ((colWrites m c).reverse.find? (fun w => w.1 == k)).map (fun w => w.2) ∧
    mapGet (buildAnyMap m) k =
      ((anyWrites m).find? (fun w => w.1 == k)).map (fun w => w.2) :=
  ⟨mapGet_buildColMap m c k, mapGet_buildAnyMap m k⟩

/-- C2 counterexample: the empty string contains no separator, yet decodeKey
over the repository example table returns NaN (modelled as ok none) rather
than raising the invalid-token error. -/
theorem C2_counterexample_empty_nan :
    decodeKey exMat ':' [] = Except.ok none ∧
    decodeKey exMat ':' [] ≠ Except.error () :=
  ⟨rfl, fun hc => by
    have h1 : decodeKey exMat ':' [] = Except.ok none := rfl
    rw [h1] at hc
    exact Except.noConfusion hc⟩

/-- C2 (amended): over a valid table, decodeKey raises the uniform
invalid-token error on every nonempty input in which the configured
separator does not occur; the empty string is the exception — there the
reconstructed digit string is empty and decodeKey returns NaN without
raising (verifyKey screens that NaN with its explicit check). -/
theorem C2_invalid_or_nan (m : Mat) (N bs : Nat) (sep : Char) (s : Str)
    (hv : ValidTable m N bs) (hsep : sep ∉ s) :
    (s ≠ [] → decodeKey m sep s = Except.error ()) ∧
    (s = [] → decodeKey m sep s = Except.ok none) := by
  have hbs : 1 ≤ baseSize m := by
    rw [baseSize_eq hv]
    exact hv.bsPos
  have hcont : s.contains sep = false := contains_eq_false hsep
  constructor
  · intro hne
    show decodeKeyG optPrims m sep s = Except.error ()
    rw [decodeKeyG]
    simp only [hcont, Bool.false_eq_true, if_false, parts_nil, seqOpt]
    have hchunks :
        decodeChunks (optPrims.num m) (optPrims.stringCol m) (baseSize m) s
          (parseIntDigits (([] : List Nat).map natChars).flatten)
          (s.length + 1) 0 [] = none := by
      simp only [List.map_nil, List.flatten_nil, parseIntDigits, if_pos rfl]
      exact decodeChunks_nan_col _ _ _ s (fun x => rfl) hbs s.length 0
        (List.length_pos.mpr hne) []
    rw [hchunks]
  · intro hempty
    subst hempty
    show decodeKeyG optPrims m sep [] = Except.ok none
    rw [decodeKeyG]
    simp only [List.contains_nil, Bool.false_eq_true, if_false, parts_nil, seqOpt]
    simp [decodeChunks, objValues, List.insertionSort, parseIntDigits]

/-- C2 witness: a concrete valid table, a nonempty separator-free input that
raises, and the empty input returning NaN. -/
theorem C2_invalid_or_nan_witness :
    decodeKey exMat ':' ['A', 'B'] = Except.error () ∧
    decodeKey exMat ':' [] = Except.ok none :=
  ⟨(C2_invalid_or_nan exMat 6 1 ':' ['A', 'B'] exMat_valid (by decide)).1
      (by decide),
   (C2_invalid_or_nan exMat 6 1 ':' [] exMat_valid (by decide)).2 rfl⟩

/-- C3: once decode succeeds with timestamp t, verifyKey fails as expired
exactly when the drift exceeds the allowed skew: it accepts (is not
expired) when the drift is at most allowedSkewMs, including the boundary
drift allowedSkewMs, and is expired from drift allowedSkewMs + 1 on. -/
theorem C3_skew_boundary (m : Mat) (sep : Char) (skew ttl now t : Nat)
    (cache? : Option CacheStore) (key : Str)
    (hdec : decodeKey m sep key = Except.ok (some t)) :
    ((verifyKey m sep skew ttl now cache? key).1 ≠ Except.error VerifyErr.expired
      ↔ Nat.dist now t ≤ skew) := by
  simp only [verifyKey, hdec]
  by_cases h : skew < Nat.dist now t
  · rw [if_pos h]
    constructor
    · intro hcontra
      exact absurd rfl hcontra
    · intro hle
      exact absurd hle (by omega)
  · rw [if_neg h]
    have hle : Nat.dist now t ≤ skew := by omega
    rcases cache? with _ | st
    · simpa using hle
    · by_cases hhit : cacheHas st (replayCacheKey t key) = true
      · simp [hhit, hle]
      · simp [hhit, hle]

/-- C3 witness: over the example table and the concrete token tok12
(timestamp 12) with skew 30000, drift 30000 is accepted and drift 30001 is
expired. -/
theorem C3_skew_boundary_witness :
    ((verifyKey exMat ':' 30000 30000 30012 none tok12).1
        ≠ Except.error VerifyErr.expired ↔ Nat.dist 30012 12 ≤ 30000) ∧
    ((verifyKey exMat ':' 30000 30000 30013 none tok12).1
        ≠ Except.error VerifyErr.expired ↔ Nat.dist 30013 12 ≤ 30000) :=
  ⟨C3_skew_boundary exMat ':' 30000 30000 30012 12 none tok12 rfl,
   C3_skew_boundary exMat ':' 30000 30000 30013 12 none tok12 rfl⟩

/-- C4: with a replay cache, the cache key is the decoded timestamp, a
colon, and the token; a first in-window call with a fresh token succeeds
and inserts that key, and a second call with the identical token against
the updated cache fails as replay. -/
theorem C4_replay_detection (m : Mat) (sep : Char) (skew ttl now now2 t : Nat)
    (st : CacheStore) (key : Str)
    (hdec : decodeKey m sep key = Except.ok (some t))
    (h1 : Nat.dist now t ≤ skew) (h2 : Nat.dist now2 t ≤ skew)
    (hfresh : cacheHas st (replayCacheKey t key) = false) :
    verifyKey m sep skew ttl now (some st) key =
      (Except.ok t, some (cacheAdd st (replayCacheKey t key) now ttl)) ∧
    (verifyKey m sep skew ttl now2
        (some (cacheAdd st (replayCacheKey t key) now ttl)) key).1 =
      Except.error VerifyErr.replay := by
  constructor
  · simp only [verifyKey, hdec]
    rw [if_neg (by omega)]
    simp [hfresh]
  · simp only [verifyKey, hdec]
    rw [if_neg (by omega)]
    have hhit := cacheHas_mapSet_self st (replayCacheKey t key) (now + ttl)
    simp only [cacheAdd] at hhit ⊢
    simp [hhit]

/-- C4 witness: both calls at the concrete instant 12 over the example
table and token tok12, starting from the empty cache. -/
theorem C4_replay_detection_witness :
    verifyKey exMat ':' 30000 5 12 (some []) tok12 =
      (Except.ok 12, some (cacheAdd [] (replayCacheKey 12 tok12) 12 5)) ∧
    (verifyKey exMat ':' 30000 5 12
        (some (cacheAdd [] (replayCacheKey 12 tok12) 12 5)) tok12).1 =
      Except.error VerifyErr.replay :=
  C4_replay_detection exMat ':' 30000 5 12 12 12 [] tok12 rfl (by decide)
    (by decide) (by decide)

/-- C6 counterexample: token tok12 (timestamp 12) is verified at instant 12
with an empty cache and ttl 5, so its cache entry expires at instant 17; a
call at instant 20 — after the expiry instant, still within the skew
window — is nevertheless rejected as replay, because has() ignores the
stored expiry and no sweep has removed the entry. -/
theorem C6_counterexample_expired_entry_rejected :
    verifyKey exMat ':' 30000 5 12 (some []) tok12 =
      (Except.ok 12, some [(replayCacheKey 12 tok12, 17)]) ∧
    (17 ≤ 20 ∧ Nat.dist 20 12 ≤ 30000) ∧
    (verifyKey exMat ':' 30000 5 20
        (some [(replayCacheKey 12 tok12, 17)]) tok12).1 =
      Except.error VerifyErr.replay :=
  ⟨rfl, ⟨by decide, by decide⟩, rfl⟩

/-- C6 (amended): a third verify call with the same token is accepted again
once the periodic sweep of the in-memory cache has run at an instant at or
after the entry's expiry; eviction happens at sweep time, not at the expiry
instant itself. -/
theorem C6_accept_after_sweep (m : Mat) (sep : Char)
    (skew ttl now2 nowS t : Nat) (st : CacheStore) (key : Str)
    (hdec : decodeKey m sep key = Except.ok (some t))
    (h2 : Nat.dist now2 t ≤ skew)
    (hexp : ∀ p ∈ st, p.1 = replayCacheKey t key → p.2 ≤ nowS) :
    verifyKey m sep skew ttl now2 (some (sweepCache st nowS)) key =
      (Except.ok t,
        some (cacheAdd (sweepCache st nowS) (replayCacheKey t key) now2 ttl)) := by
  simp only [verifyKey, hdec]
  rw [if_neg (by omega)]
  rw [cacheHas_sweep_false st _ nowS hexp]
  simp

/-- C6 witness: after a sweep at instant 18 evicts the entry that expired
at 17, the call at instant 20 succeeds again. -/
theorem C6_accept_after_sweep_witness :
    verifyKey exMat ':' 30000 5 20
        (some (sweepCache [(replayCacheKey 12 tok12, 17)] 18)) tok12 =
      (Except.ok 12,
        some (cacheAdd (sweepCache [(replayCacheKey 12 tok12, 17)] 18)
          (replayCacheKey 12 tok12) 20 5)) :=
  C6_accept_after_sweep exMat ':' 30000 5 20 18 12
    [(replayCacheKey 12 tok12, 17)] tok12 rfl (by decide) (by decide)

/-- C10: verifyKey is atomic with respect to the replay cache: every
rejected call leaves the cache exactly as it was, and a successful call
inserts exactly the cache key of the decoded timestamp and token. -/
theorem C10_cache_atomicity (m : Mat) (sep : Char) (skew ttl now : Nat)
    (cache? : Option CacheStore) (key : Str) :
    (∀ e, (verifyKey m sep skew ttl now cache? key).1 = Except.error e →
        (verifyKey m sep skew ttl now cache? key).2 = cache?) ∧
    (∀ t, (verifyKey m sep skew ttl now cache? key).1 = Except.ok t →
        (verifyKey m sep skew ttl now cache? key).2 =
          cache?.map (fun st => cacheAdd st (replayCacheKey t key) now ttl)) := by
  rcases hdec : decodeKey m sep key with _ | t?
  · simp [verifyKey, hdec]
  · rcases t? with _ | t
    · simp [verifyKey, hdec]
    · by_cases hskew : skew < Nat.dist now t
      · simp [verifyKey, hdec, hskew]
      · rcases cache? with _ | st
        · simp only [verifyKey, hdec, if_neg hskew]
          constructor
          · intro e he
            simp at he
          · intro t2 ht2
            simp at ht2
            simp [ht2]
        · by_cases hhit : cacheHas st (replayCacheKey t key) = true
          · simp [verifyKey, hdec, hskew, hhit]
          · simp only [verifyKey, hdec, if_neg hskew]
            rw [show cacheHas st (replayCacheKey t key) = false from by
              simpa using hhit]
            constructor
            · intro e he
              simp at he
            · intro t2 ht2
              simp at ht2
              subst ht2
              simp

/-- C10 witness: a rejected call (expired drift) leaves the concrete cache
untouched, and the successful call inserts the cache key. -/
theorem C10_cache_atomicity_witness :
    (verifyKey exMat ':' 30000 5 40000 (some []) tok12).2 = some [] ∧
    (verifyKey exMat ':' 30000 5 12 (some []) tok12).2 =
      (some []).map (fun st => cacheAdd st (replayCacheKey 12 tok12) 12 5) :=
  ⟨(C10_cache_atomicity exMat ':' 30000 5 40000 (some []) tok12).1
      VerifyErr.expired rfl,
   (C10_cache_atomicity exMat ':' 30000 5 12 (some []) tok12).2 12 rfl⟩

/-- C1 counterexample: the identity-like table whose ten symbols are the
digit characters themselves satisfies every stated table invariant (all ten
digits present, equal-length symbol lists, uniform symbol length, global
uniqueness), yet the token generated for the timestamp 5 — with legitimate
random choices (the one-digit shuffle of the digits of 5, metadata column
0, value column 0) — fails to decode: the digit symbols are swallowed by
the decimal length prefixes of the wire format, the cursor desynchronises
and decodeKey raises the invalid-token error instead of returning 5. -/
theorem C1_counterexample_digit_symbols :
    ValidTable idMat 1 1 ∧
    [(5 : Nat)].Perm (natDigits 5) ∧ (0 : Nat) < 1 ∧
    generateKey? idMat ':' (natDigits 5) [5] 0 [0]
      = some ['0', ':', '5', '1', '0', '1', '0'] ∧
    decodeKey idMat ':' ['0', ':', '5', '1', '0', '1', '0']
      = Except.error () :=
  ⟨idMat_valid, by decide, by decide, rfl, rfl⟩

/-- C1 (amended): under the stated table invariants PLUS the additional
hypotheses that no table symbol begins with a decimal digit character and
that the separator occurs in no symbol, the round trip holds for every
timestamp T and every outcome of the random choices: generateKey produces
a token and decodeKey (the optimized decoder) returns exactly T. -/
theorem C1_roundtrip (m : Mat) (N bs : Nat) (sep : Char) (T c₀ : Nat)
    (sh vcols : List Nat) (hv : ValidTable m N bs) (hnd : NoDigitStart m)
    (hsf : SepFree m sep) (hc₀ : c₀ < N)
    (hT : (natDigits T).length ≤ 4294967295)
    (hperm : sh.Perm (natDigits T))
    (hvl : (natDigits T).length ≤ vcols.length)
    (hvcols : ∀ v ∈ vcols, v < N) :
    ∃ tok, generateKey? m sep (natDigits T) sh c₀ vcols = some tok ∧
      decodeKey m sep tok = Except.ok (some T) :=
  decodeKeyG_roundtrip hv hnd hsf optPrims (optPrims_ok hv) T c₀ hc₀ hT
    sh vcols hperm hvl hvcols

/-- C1 witness: the repository example table, the duplicate-heavy timestamp
1771177111 of the spec, a concrete shuffle of its digits, metadata column 3
and concrete value columns satisfy every hypothesis, and the token
round-trips. -/
theorem C1_roundtrip_witness :
    ∃ tok, generateKey? exMat ':' (natDigits 1771177111)
        [7, 1, 1, 7, 1, 7, 1, 1, 7, 1] 3 [0, 1, 2, 3, 4, 5, 0, 1, 2, 3]
        = some tok ∧
      decodeKey exMat ':' tok = Except.ok (some 1771177111) :=
  C1_roundtrip exMat 6 1 ':' 1771177111 3 [7, 1, 1, 7, 1, 7, 1, 1, 7, 1]
    [0, 1, 2, 3, 4, 5, 0, 1, 2, 3] exMat_valid
    (by unfold NoDigitStart; decide) (by unfold SepFree; decide)
    (by decide) (by decide) (by decide) (by decide) (by decide)

/-- C5 counterexample: over the repository example table (which satisfies
the table invariants) the two decoders differ on the input /:d1a1/ — the
naive decoder treats the numeric column 0 as falsy (`if (col)`) and falls
back to the any-column scan, decoding the body and returning 2, while the
optimized decoder looks the symbol d up in the per-column map of column 0,
misses, and raises the invalid-token error. -/
theorem C5_counterexample_truthiness :
    ValidTable exMat 6 1 ∧
    naiveDecodeKey exMat ':' ['/', ':', 'd', '1', 'a', '1', '/']
      = Except.ok (some 2) ∧
    decodeKey exMat ':' ['/', ':', 'd', '1', 'a', '1', '/']
      = Except.error () :=
  ⟨exMat_valid, rfl, rfl⟩

/-- C5 (amended): the two decoders do agree on every token the generator
actually produces: for every valid table whose symbols neither begin with
a digit nor contain the separator, and every outcome of the random
choices, the generated token is decoded identically (to the original
timestamp) by the naive matrix-scanning decoder and the optimized
Decode-Index decoder. -/
theorem C5_decoders_agree_on_generated (m : Mat) (N bs : Nat) (sep : Char)
    (T c₀ : Nat) (sh vcols : List Nat) (hv : ValidTable m N bs)
    (hnd : NoDigitStart m) (hsf : SepFree m sep) (hc₀ : c₀ < N)
    (hT : (natDigits T).length ≤ 4294967295)
    (hperm : sh.Perm (natDigits T))
    (hvl : (natDigits T).length ≤ vcols.length)
    (hvcols : ∀ v ∈ vcols, v < N) :
    ∃ tok, generateKey? m sep (natDigits T) sh c₀ vcols = some tok ∧
      naiveDecodeKey m sep tok = decodeKey m sep tok ∧
      decodeKey m sep tok = Except.ok (some T) := by
  obtain ⟨tok, hgen, hdec⟩ := decodeKeyG_roundtrip hv hnd hsf optPrims
    (optPrims_ok hv) T c₀ hc₀ hT sh vcols hperm hvl hvcols
  obtain ⟨tok2, hgen2, hdec2⟩ := decodeKeyG_roundtrip hv hnd hsf naivePrims
    (naivePrims_ok hv) T c₀ hc₀ hT sh vcols hperm hvl hvcols
  have ht : tok2 = tok := Option.some_injective _ (hgen2.symm.trans hgen)
  refine ⟨tok, hgen, ?_, hdec⟩
  rw [ht] at hdec2
  rw [naiveDecodeKey, decodeKey, hdec2]
  exact hdec.symm

/-- C5 witness: a concrete generated token of the example table (timestamp
177111, metadata column 2) on which both decoders are proven to agree and
return the timestamp. -/
theorem C5_decoders_agree_on_generated_witness :
    ∃ tok, generateKey? exMat ':' (natDigits 177111)
        [7, 1, 1, 1, 1, 7] 2 [5, 4, 3, 2, 1, 0] = some tok ∧
      naiveDecodeKey exMat ':' tok = decodeKey exMat ':' tok ∧
      decodeKey exMat ':' tok = Except.ok (some 177111) :=
  C5_decoders_agree_on_generated exMat 6 1 ':' 177111 2 [7, 1, 1, 1, 1, 7]
    [5, 4, 3, 2, 1, 0] exMat_valid
    (by unfold NoDigitStart; decide) (by unfold SepFree; decide) (by decide)
    (by decide) (by decide) (by decide) (by decide)

/-- C7: the encoder is total — for every valid table, every timestamp T
(as the list of its decimal digits), every shuffle of those digits, every
in-range metadata column and enough in-range value columns, generateKey
returns a token (no error, and in the embedding no out-of-range matrix
access): the per-digit position queues never run dry because the shuffle
is a permutation of the digit list. -/
theorem C7_generateKey_total (m : Mat) (N bs : Nat) (sep : Char) (T c₀ : Nat)
    (sh vcols : List Nat) (hv : ValidTable m N bs) (hc₀ : c₀ < N)
    (hperm : sh.Perm (natDigits T))
    (hvl : (natDigits T).length ≤ vcols.length)
    (hvcols : ∀ v ∈ vcols, v < N) :
    ∃ tok, generateKey? m sep (natDigits T) sh c₀ vcols = some tok := by
  have hfst : ((sh.zip vcols).map Prod.fst) = sh :=
    List.map_fst_zip sh vcols (by have := hperm.length_eq; omega)
  have hcount : ∀ d, (((sh.zip vcols).map Prod.fst).count d)
      ≤ (positionsOf (natDigits T) d).length := by
    intro d
    rw [hfst, positionsOf_length, hperm.count_eq d]
  obtain ⟨tr, htr⟩ := Option.isSome_iff_exists.mp
    (genTrace_isSome (sh.zip vcols) (positionsOf (natDigits T)) hcount)
  obtain ⟨hsh1, hsh2, hsh3⟩ := genTrace_shape (sh.zip vcols)
    (positionsOf (natDigits T)) tr htr
    (positionsOf_disjoint (natDigits T)) (positionsOf_nodup (natDigits T))
  have htrN : ∀ x ∈ tr, x.2.1 < N := by
    intro x hx
    have hmem : (x.1, x.2.1) ∈ sh.zip vcols := by
      rw [← hsh1]
      exact List.mem_map_of_mem _ hx
    exact hvcols _ (List.of_mem_zip hmem).2
  have hbody := genBody_eq hv hc₀ (sh.zip vcols) (positionsOf (natDigits T))
    tr htr htrN
  have hsauce : (seqOpt (fun d => msym? m d c₀) (natDigits c₀)).map List.flatten
      = some (esym m c₀ c₀) := by
    rw [seqOpt_eq_map (fun d => msym? m d c₀) (fun d => msym m d c₀)
      (natDigits c₀) (fun d hd => msym?_eq hv (natDigits_lt c₀ d hd) hc₀),
      Option.map_some']
    rw [esym]
  exact ⟨_, by
    rw [generateKey?, hbody, Option.some_bind, hsauce, Option.map_some']⟩

/-- C7 witness: the encoder succeeds on the example table for the timestamp
20261112 with a concrete shuffle, metadata column 5 and concrete value
columns. -/
theorem C7_generateKey_total_witness :
    ∃ tok, generateKey? exMat ':' (natDigits 20261112)
      [1, 2, 0, 2, 1, 2, 6, 1] 5 [0, 0, 1, 1, 2, 2, 3, 3] = some tok :=
  C7_generateKey_total exMat 6 1 ':' 20261112 5 [1, 2, 0, 2, 1, 2, 6, 1]
    [0, 0, 1, 1, 2, 2, 3, 3] exMat_valid (by decide) (by decide) (by decide)
    (by decide)

end ReqSeal
